import Mathlib

/-!
# The wax C runtime: growable array and chained hash map

A shallow embedding of the container runtime that `src/text.c` stores in the
string constant `TEXT_std_c` (the C text that the wax compiler splices into the
programs it emits), and theorems about it.

Conventions of the embedding.

* A heap buffer is the list of its bytes (`List Nat`, every byte in `0..255`);
  its size in bytes is the length of the list.  `malloc` and the tail added by
  `realloc` hold indeterminate bytes in C; the model fills them with `0` and no
  theorem depends on that value.
* An access outside a buffer or outside the bucket array is undefined
  behaviour in C.  The operations that can perform one return `Option`, and
  `none` stands for such an access.
* `size_t` and `int` quantities are natural numbers; all sizes are taken to be
  small enough that the products and sums computed by the code do not wrap.
  Subtractions on `size_t` are written with truncated subtraction, which
  agrees with C whenever the subtrahend is not larger (the documented
  preconditions `i ≤ len`, `n ≤ len`).
* Multi-byte scalars are stored little-endian, and `sizeof(int)` is 4.
* Whether plain `char` is signed is left to the C implementation; the hash reads key
  bytes through plain `char`, so the map operations take that choice as their first
  argument `char_signed`.
-/

namespace Wax

/-! ## Raw memory -/

/-- The bytes `buf[off .. off+n)` (shorter when the range leaves the buffer). -/
def readBytes (buf : List Nat) (off n : Nat) : List Nat :=
  (buf.drop off).take n

/-- Store the bytes `v` at offset `off`; `none` when the store leaves the buffer. -/
def writeBytes (buf : List Nat) (off : Nat) (v : List Nat) : Option (List Nat) :=
  if off + v.length ≤ buf.length then
    some (buf.take off ++ v ++ buf.drop (off + v.length))
  else none

/-- The call `memmove(buf + dst, buf + src, n)` inside one buffer: both ranges must lie
inside the buffer. -/
def memmove (buf : List Nat) (dst src n : Nat) : Option (List Nat) :=
  if src + n ≤ buf.length then writeBytes buf dst (readBytes buf src n) else none

/-- The call `memcpy(dst + doff, src + soff, n)` between two distinct buffers. -/
def memcpy (dst : List Nat) (doff : Nat) (src : List Nat) (soff n : Nat) :
    Option (List Nat) :=
  if soff + n ≤ src.length then writeBytes dst doff (readBytes src soff n) else none

/-- A fresh buffer of `n` bytes. -/
def malloc (n : Nat) : List Nat := List.replicate n 0

/-- The call `realloc(buf, n)`: the first `min(old size, n)` bytes are kept. -/
def realloc (buf : List Nat) (n : Nat) : List Nat :=
  buf.take n ++ List.replicate (n - buf.length) 0

/-- The macro `W_MAX(a,b) (((a)>(b))?(a):(b))`. -/
def W_MAX (a b : Nat) : Nat := if a > b then a else b

/-- The `w` little-endian bytes of the binary wrap-around representation of `v`. -/
def le_bytes (w : Nat) (v : Int) : List Nat :=
  (List.range w).map fun k => ((v % 2 ^ (8 * w)).toNat / 256 ^ k) % 256

/-! ## Typed dynamic array -/

/-- The struct `w_arr_st {void* data; size_t len; size_t cap; size_t elem_size;}`. -/
structure w_arr_t where
  data : List Nat
  len : Nat
  cap : Nat
  elem_size : Nat
deriving DecidableEq

/-- `w_arr_new_impl(elem_size)`. -/
def w_arr_new_impl (elem_size : Nat) : w_arr_t :=
  { elem_size := elem_size, len := 0, cap := 16, data := malloc (16 * elem_size) }

/-- `w_arr_new_ints(count, ...)`: `vals` are the `count` variadic arguments, stored as
4-byte ints in a buffer of exactly `count` slots. -/
def w_arr_new_ints (vals : List Int) : w_arr_t :=
  { elem_size := 4, len := vals.length, cap := vals.length,
    data := (vals.map (le_bytes 4)).flatten }

/-- The macro `w_arr_get(type,arr,i)`, where `tsize` is `sizeof(type)`: the unchecked read
`((type*)arr->data)[i]`. -/
def w_arr_get (tsize : Nat) (arr : w_arr_t) (i : Nat) : List Nat :=
  readBytes arr.data (i * tsize) tsize

/-- The macro `w_arr_set(type,arr,i,x)`: the store `((type*)arr->data)[i] = x`, where
`x` is given by its `sizeof(type)` bytes. -/
def w_arr_set (arr : w_arr_t) (i : Nat) (x : List Nat) : Option w_arr_t :=
  (writeBytes arr.data (i * x.length) x).map fun d => { arr with data := d }

/-- `w_arr_insert_impl(arr, i)`: grow when full, open a gap at slot `i`, count it. -/
def w_arr_insert_impl (arr : w_arr_t) (i : Nat) : Option w_arr_t :=
  let arr1 : w_arr_t :=
    if arr.len ≥ arr.cap then
      let cap := arr.cap + W_MAX 4 (arr.cap / 2)
      { arr with cap := cap, data := realloc arr.data (arr.elem_size * cap) }
    else arr
  if i < arr1.len then
    (memmove arr1.data ((i + 1) * arr1.elem_size) (i * arr1.elem_size)
        ((arr1.len - i) * arr1.elem_size)).map
      fun d => { arr1 with data := d, len := arr1.len + 1 }
  else some { arr1 with len := arr1.len + 1 }

/-- The macro `w_arr_insert(type,arr,i,x)`: `w_arr_insert_impl` and then the store at `i`. -/
def w_arr_insert (arr : w_arr_t) (i : Nat) (x : List Nat) : Option w_arr_t :=
  (w_arr_insert_impl arr i).bind fun a => w_arr_set a i x

/-- `w_arr_remove(arr, i, n)`: one `memmove` of `(len - i + n) * elem_size` bytes from
slot `i + n` to slot `i`, then `len -= n`. -/
def w_arr_remove (arr : w_arr_t) (i n : Nat) : Option w_arr_t :=
  (memmove arr.data (i * arr.elem_size) ((i + n) * arr.elem_size)
      ((arr.len - i + n) * arr.elem_size)).map
    fun d => { arr with data := d, len := arr.len - n }

/-- `w_arr_slice(arr, i, n)`: a new handle of `n` slots filled by one `memcpy` of
`n * elem_size` bytes that starts at BYTE offset `i` of the source buffer. -/
def w_arr_slice (arr : w_arr_t) (i n : Nat) : Option w_arr_t :=
  let brr : w_arr_t :=
    { elem_size := arr.elem_size, len := n, cap := n, data := malloc (n * arr.elem_size) }
  (memcpy brr.data 0 arr.data i (n * arr.elem_size)).map fun d => { brr with data := d }

/-- The live elements of an array, `w_arr_get` at the indices `0 .. len-1`. -/
def w_arr_elems (arr : w_arr_t) : List (List Nat) :=
  (List.range arr.len).map fun j => w_arr_get arr.elem_size arr j

/-- The handle is well formed: the buffer has `cap` slots and `len ≤ cap`. -/
def w_arr_ok (arr : w_arr_t) : Prop :=
  arr.data.length = arr.cap * arr.elem_size ∧ arr.len ≤ arr.cap

instance (arr : w_arr_t) : Decidable (w_arr_ok arr) := by
  unfold w_arr_ok; infer_instance

/-- The growth step of `w_arr_insert_impl` as a function of the handle. -/
def w_arr_grow (arr : w_arr_t) : w_arr_t :=
  if arr.len ≥ arr.cap then
    { arr with cap := arr.cap + W_MAX 4 (arr.cap / 2),
               data := realloc arr.data (arr.elem_size * (arr.cap + W_MAX 4 (arr.cap / 2))) }
  else arr

/-! ## Chained hash map -/

/-- The macro `W_NUM_MAP_SLOTS`. -/
abbrev W_NUM_MAP_SLOTS : Nat := 64

/-- The struct `w_slot_st {int keylen; void* key; int64_t data; struct w_slot_st* next;}`
without its `next` link: a chain is the list of its nodes, head first.  `key` is the
buffer of key bytes that the node owns. -/
structure w_slot_t where
  keylen : Nat
  key : List Nat
  data : Int
deriving DecidableEq

/-- The struct `w_map_st {char key_is_ptr; size_t len; w_slot_t* slots[W_NUM_MAP_SLOTS];}`. -/
structure w_map_t where
  key_is_ptr : Int
  len : Nat
  slots : Fin W_NUM_MAP_SLOTS → List w_slot_t

/-- The `int64_t key` argument of the map operations: its value `val`, and `str`, the bytes
found in memory from address `val` on.  `str` is read only by a map with `key_is_ptr` set,
which casts `key` to `char*`; the end of the list counts as a terminator. -/
structure w_key where
  val : Int
  str : List Nat
deriving DecidableEq

/-- `strlen(s)`: the number of bytes before the first zero byte. -/
def strlen (s : List Nat) : Nat := (s.takeWhile fun b => b ≠ 0).length

/-- `w_map_new(key_is_ptr)`. -/
def w_map_new (key_is_ptr : Int) : w_map_t :=
  { key_is_ptr := key_is_ptr, len := 0, slots := fun _ => [] }

/-- The byte `b` read through plain `char` and promoted to `int`.  Whether plain `char`
is signed is fixed by the C implementation: it is on x86-64 (System V and Windows) and on
Apple arm64, it is not on Linux arm64. -/
def char_to_int (char_signed : Bool) (b : Nat) : Int :=
  if char_signed ∧ 128 ≤ b then (b : Int) - 256 else (b : Int)

/-- The value of the 32-bit `int` with bit pattern `u`. -/
def int_of_bits (u : Nat) : Int :=
  if u % 2 ^ 32 < 2 ^ 31 then ((u % 2 ^ 32 : Nat) : Int) else ((u % 2 ^ 32 : Nat) : Int) - 2 ^ 32

/-- `x ^ y` on 32-bit `int`, through the binary wrap-around bit patterns. -/
def int_xor (x y : Int) : Int :=
  int_of_bits ((x % 2 ^ 32).toNat ^^^ (y % 2 ^ 32).toNat)

/-- `w_map_hash(ptr, len)`: xor of the `len` bytes at `ptr`, each read as `char`, then the
C remainder `x %= W_NUM_MAP_SLOTS` (which has the sign of `x`). -/
def w_map_hash (char_signed : Bool) (ptr : List Nat) (len : Nat) : Int :=
  Int.tmod ((ptr.take len).foldl (fun x b => int_xor x (char_to_int char_signed b)) 0)
    W_NUM_MAP_SLOTS

/-- The key selection that opens `w_map_set`, `w_map_get` and `w_map_remove`:
the pair `(keyptr, keylen)`, `keyptr` given by the bytes it points to. -/
def w_map_key (map : w_map_t) (key : w_key) : List Nat × Nat :=
  if map.key_is_ptr ≠ 0 then (key.str, strlen key.str) else (le_bytes 8 key.val, 8)

/-- The bucket `map->slots[k]` for an `int` index `k`: `none` outside `0 .. 63`. -/
def w_map_slot (k : Int) : Option (Fin W_NUM_MAP_SLOTS) :=
  if h : 0 ≤ k ∧ k < 64 then some ⟨k.toNat, by show k.toNat < 64; omega⟩ else none

/-- The test `keylen == it->keylen` followed by `memcmp(it->key,keyptr,keylen)==0`. -/
def w_slot_match (keyptr : List Nat) (keylen : Nat) (it : w_slot_t) : Bool :=
  keylen == it.keylen && it.key.take keylen == keyptr.take keylen

/-- The scan of `w_map_set`: overwrite the data of the first matching node; `none` when
the loop ends without a match. -/
def w_slot_set (keyptr : List Nat) (keylen : Nat) (data : Int) :
    List w_slot_t → Option (List w_slot_t)
  | [] => none
  | it :: next =>
    if w_slot_match keyptr keylen it then some ({ it with data := data } :: next)
    else (w_slot_set keyptr keylen data next).map fun c => it :: c

/-- The scan of `w_map_get`: the data of the first matching node, `0` when none matches. -/
def w_slot_get (keyptr : List Nat) (keylen : Nat) : List w_slot_t → Int
  | [] => 0
  | it :: next =>
    if w_slot_match keyptr keylen it then it.data else w_slot_get keyptr keylen next

/-- The scan of `w_map_remove`: unlink the first matching node. -/
def w_slot_remove (keyptr : List Nat) (keylen : Nat) : List w_slot_t → List w_slot_t
  | [] => []
  | it :: next =>
    if w_slot_match keyptr keylen it then next
    else it :: w_slot_remove keyptr keylen next

/-- `w_map_set(map, key, data)`. -/
def w_map_set (char_signed : Bool) (map : w_map_t) (key : w_key) (data : Int) :
    Option w_map_t :=
  let keyptr := (w_map_key map key).1
  let keylen := (w_map_key map key).2
  match w_map_slot (w_map_hash char_signed keyptr keylen) with
  | none => none
  | some k =>
    match w_slot_set keyptr keylen data (map.slots k) with
    | some chain => some { map with slots := Function.update map.slots k chain }
    | none =>
      let slot : w_slot_t := { key := keyptr.take keylen, data := data, keylen := keylen }
      some { map with slots := Function.update map.slots k (slot :: map.slots k),
                      len := map.len + 1 }

/-- `w_map_get(map, key)`. -/
def w_map_get (char_signed : Bool) (map : w_map_t) (key : w_key) : Option Int :=
  let keyptr := (w_map_key map key).1
  let keylen := (w_map_key map key).2
  match w_map_slot (w_map_hash char_signed keyptr keylen) with
  | none => none
  | some k => some (w_slot_get keyptr keylen (map.slots k))

/-- `w_map_remove(map, key)`. -/
def w_map_remove (char_signed : Bool) (map : w_map_t) (key : w_key) : Option w_map_t :=
  let keyptr := (w_map_key map key).1
  let keylen := (w_map_key map key).2
  match w_map_slot (w_map_hash char_signed keyptr keylen) with
  | none => none
  | some k =>
    some { map with slots := Function.update map.slots k
                      (w_slot_remove keyptr keylen (map.slots k)) }

/-- The maps reachable from `w_map_new` by `w_map_set` and `w_map_remove` calls that stay
inside the bucket array. -/
inductive w_map_reachable (char_signed : Bool) : w_map_t → Prop
  | new (key_is_ptr : Int) : w_map_reachable char_signed (w_map_new key_is_ptr)
  | set {map map1 : w_map_t} (key : w_key) (data : Int) :
      w_map_reachable char_signed map → w_map_set char_signed map key data = some map1 →
      w_map_reachable char_signed map1
  | remove {map map1 : w_map_t} (key : w_key) :
      w_map_reachable char_signed map → w_map_remove char_signed map key = some map1 →
      w_map_reachable char_signed map1

/-- The identity of a stored key: its length tag and its bytes. -/
def w_slot_id (it : w_slot_t) : Nat × List Nat := (it.keylen, it.key)

/-- The identity of the key that a call passes to a map: `keylen` and the `keylen`
bytes at `keyptr`. -/
def w_key_id (map : w_map_t) (key : w_key) : Nat × List Nat :=
  ((w_map_key map key).2, (w_map_key map key).1.take (w_map_key map key).2)

/-- The bucket that a call with this key scans, `none` when the hash is not an index
of the bucket array. -/
def w_key_slot (char_signed : Bool) (map : w_map_t) (key : w_key) :
    Option (Fin W_NUM_MAP_SLOTS) :=
  w_map_slot (w_map_hash char_signed (w_map_key map key).1 (w_map_key map key).2)

/-- Chain invariant: the length tag of every node is the size of its key buffer, and no
two nodes carry the same key. -/
def w_chain_ok (c : List w_slot_t) : Prop :=
  (c.map w_slot_id).Nodup ∧ ∀ p ∈ c.map w_slot_id, p.2.length = p.1

/-- Map invariant: every chain is well formed and holds only keys that hash to its
bucket. -/
def w_map_ok (char_signed : Bool) (map : w_map_t) : Prop :=
  ∀ b, w_chain_ok (map.slots b) ∧
    ∀ p ∈ (map.slots b).map w_slot_id, w_map_slot (w_map_hash char_signed p.2 p.1) = some b

/-! ## Sequences of array operations -/

/-- One mutating call on an array: `w_arr_insert(type,arr,i,x)` or `w_arr_remove(arr,i,n)`. -/
inductive w_arr_op where
  | insert (i : Nat) (x : List Nat)
  | remove (i n : Nat)
deriving DecidableEq

/-- The call that an operation stands for. -/
def w_arr_step (arr : w_arr_t) : w_arr_op → Option w_arr_t
  | .insert i x => w_arr_insert arr i x
  | .remove i n => w_arr_remove arr i n

/-- A sequence of calls on one handle, first call first. -/
def w_arr_run (arr : w_arr_t) : List w_arr_op → Option w_arr_t
  | [] => some arr
  | op :: ops => (w_arr_step arr op).bind fun a => w_arr_run a ops

/-- The list model of the specification: insertion shifts the later elements right,
removal of a range shifts the later elements left. -/
def list_step (l : List (List Nat)) : w_arr_op → List (List Nat)
  | .insert i x => l.take i ++ x :: l.drop i
  | .remove i n => l.take i ++ l.drop (i + n)

/-- The list model run over a sequence of operations. -/
def list_run (l : List (List Nat)) : List w_arr_op → List (List Nat)
  | [] => l
  | op :: ops => list_run (list_step l op) ops

/-- The precondition of one operation on an array of `len` elements of width
`elem_size`: `0 ≤ i ≤ len` for an insertion of a value of that width, `i + n ≤ len` for a
removal. -/
def w_arr_op_pre (elem_size len : Nat) : w_arr_op → Prop
  | .insert i x => i ≤ len ∧ x.length = elem_size
  | .remove i n => i + n ≤ len

/-- Every operation of the sequence satisfies its precondition in the state it is
applied to. -/
def w_arr_ops_pre (elem_size : Nat) (l : List (List Nat)) : List w_arr_op → Prop
  | [] => True
  | op :: ops => w_arr_op_pre elem_size l.length op ∧ w_arr_ops_pre elem_size (list_step l op) ops

/-- Insertions minus removed counts, the net length of the specification. -/
def w_arr_net_len : List w_arr_op → Int
  | [] => 0
  | .insert _ _ :: ops => 1 + w_arr_net_len ops
  | .remove _ n :: ops => w_arr_net_len ops - n

/-- The number of calls among the insertions `ins` (index and value of each), made one
after the other on `arr`, that change the capacity. -/
def w_arr_realloc_count (arr : w_arr_t) : List (Nat × List Nat) → Option Nat
  | [] => some 0
  | (i, x) :: ins =>
    (w_arr_insert arr i x).bind fun a =>
      (w_arr_realloc_count a ins).map fun k => (if a.cap ≠ arr.cap then 1 else 0) + k

/-- Every insertion of the sequence has `i ≤ len` and a value of width `elem_size`, `len`
being the length at the time of the call. -/
def w_arr_ins_pre (elem_size : Nat) (len : Nat) : List (Nat × List Nat) → Prop
  | [] => True
  | (i, x) :: ins => i ≤ len ∧ x.length = elem_size ∧ w_arr_ins_pre elem_size (len + 1) ins

/-- The sixteen insertions that fill a fresh array of one-byte elements: the values
`0 .. 15` appended in order. -/
def w_arr_fill16 : List w_arr_op :=
  (List.range 16).map fun j => w_arr_op.insert j [j]

/-! ## Strings -/

/-- `w_str_new(x)`: `l = strlen(x)`, a buffer of `l` bytes, `strncpy` of `l` bytes into it,
then the store `str[l] = 0`.  `x` is given by the bytes at its address. -/
def w_str_new (x : List Nat) : Option (List Nat) :=
  let l := strlen x
  let str := malloc l
  (writeBytes str 0 (x.take l)).bind fun s => writeBytes s l [0]

/-! ## The hash of the specification -/

/-- The hash in the words of the specification: the xor of all key bytes, each taken as
its value `0 .. 255`, reduced modulo the bucket count. -/
def xor_hash_spec (bytes : List Nat) : Nat :=
  (bytes.foldl (fun x b => x ^^^ b) 0) % W_NUM_MAP_SLOTS

instance (elem_size len : Nat) (op : w_arr_op) : Decidable (w_arr_op_pre elem_size len op) := by
  cases op <;> (unfold w_arr_op_pre; infer_instance)

instance w_arr_ops_pre_decidable (elem_size : Nat) :
    (l : List (List Nat)) → (ops : List w_arr_op) → Decidable (w_arr_ops_pre elem_size l ops)
  | _, [] => isTrue trivial
  | l, op :: ops =>
    have := w_arr_ops_pre_decidable elem_size (list_step l op) ops
    inferInstanceAs (Decidable (w_arr_op_pre elem_size l.length op ∧
      w_arr_ops_pre elem_size (list_step l op) ops))

instance w_arr_ins_pre_decidable (elem_size : Nat) :
    (len : Nat) → (ins : List (Nat × List Nat)) → Decidable (w_arr_ins_pre elem_size len ins)
  | _, [] => isTrue trivial
  | len, (i, x) :: ins =>
    have := w_arr_ins_pre_decidable elem_size (len + 1) ins
    inferInstanceAs (Decidable (i ≤ len ∧ x.length = elem_size ∧
      w_arr_ins_pre elem_size (len + 1) ins))

/-- Seventeen insertions at the end of the array, of the one-byte values `0 .. 16`. -/
def w_arr_push17 : List (Nat × List Nat) :=
  (List.range 17).map fun j => (j, [j])


/-- The three map operations, called on `map` with `key` (and `data` for the set), work on
the key bytes `K` of length `kl`: `K` is what they hash to choose the bucket, what they
compare the nodes of the chain with, and what `w_map_set` stores in a new node. -/
def w_map_uses_key (char_signed : Bool) (map : w_map_t) (key : w_key) (data : Int)
    (K : List Nat) (kl : Nat) : Prop :=
  w_map_get char_signed map key =
      (w_map_slot (w_map_hash char_signed K kl)).map
        (fun b => w_slot_get K kl (map.slots b)) ∧
  w_map_remove char_signed map key =
      (w_map_slot (w_map_hash char_signed K kl)).map
        (fun b => { map with
                    slots := Function.update map.slots b
                               (w_slot_remove K kl (map.slots b)) }) ∧
  w_map_set char_signed map key data =
      (w_map_slot (w_map_hash char_signed K kl)).map
        (fun b =>
          match w_slot_set K kl data (map.slots b) with
          | some chain => { map with slots := Function.update map.slots b chain }
          | none =>
            { map with
              slots := Function.update map.slots b
                         ({ keylen := kl, key := K, data := data } :: map.slots b),
              len := map.len + 1 })

/-! ## Buffer algebra -/

theorem getElem?_readBytes (buf : List Nat) (off n t : Nat) :
    (readBytes buf off n)[t]? = if t < n then buf[off + t]? else none := by
  simp [readBytes, List.getElem?_take, List.getElem?_drop]

theorem length_readBytes (buf : List Nat) (off n : Nat) (h : off + n ≤ buf.length) :
    (readBytes buf off n).length = n := by
  simp [readBytes]; omega

theorem writeBytes_eq_some {buf : List Nat} {off : Nat} {v r : List Nat}
    (h : writeBytes buf off v = some r) :
    off + v.length ≤ buf.length ∧ r = buf.take off ++ v ++ buf.drop (off + v.length) := by
  unfold writeBytes at h
  split at h
  · exact ⟨by assumption, (Option.some.inj h).symm⟩
  · cases h

theorem length_writeBytes {buf : List Nat} {off : Nat} {v r : List Nat}
    (h : writeBytes buf off v = some r) : r.length = buf.length := by
  obtain ⟨hb, rfl⟩ := writeBytes_eq_some h
  simp; omega

theorem getElem?_writeBytes {buf : List Nat} {off : Nat} {v r : List Nat}
    (h : writeBytes buf off v = some r) (k : Nat) :
    r[k]? = if k < off then buf[k]? else if k < off + v.length then v[k - off]? else buf[k]? := by
  obtain ⟨hb, rfl⟩ := writeBytes_eq_some h
  have hl : (buf.take off).length = off := by simp; omega
  by_cases h1 : k < off
  · rw [if_pos h1, List.append_assoc, List.getElem?_append_left (by omega),
      List.getElem?_take, if_pos h1]
  · rw [if_neg h1, List.append_assoc, List.getElem?_append_right (by omega), hl]
    by_cases h2 : k < off + v.length
    · rw [if_pos h2, List.getElem?_append_left (by omega)]
    · rw [if_neg h2, List.getElem?_append_right (by omega), List.getElem?_drop]
      congr 1; omega

theorem readBytes_writeBytes_same {buf : List Nat} {off : Nat} {v r : List Nat}
    (h : writeBytes buf off v = some r) : readBytes r off v.length = v := by
  apply List.ext_getElem?
  intro t
  rw [getElem?_readBytes, getElem?_writeBytes h]
  by_cases ht : t < v.length
  · rw [if_pos ht, if_neg (by omega), if_pos (by omega)]; congr 1; omega
  · rw [if_neg ht]; exact (List.getElem?_eq_none (by omega)).symm

theorem readBytes_writeBytes_disjoint {buf : List Nat} {off : Nat} {v r : List Nat}
    (h : writeBytes buf off v = some r) (o n : Nat) (hd : o + n ≤ off ∨ off + v.length ≤ o) :
    readBytes r o n = readBytes buf o n := by
  apply List.ext_getElem?
  intro t
  rw [getElem?_readBytes, getElem?_readBytes, getElem?_writeBytes h]
  by_cases ht : t < n
  · simp only [if_pos ht]
    rcases hd with hd | hd
    · rw [if_pos (by omega)]
    · rw [if_neg (by omega), if_neg (by omega)]
  · simp only [if_neg ht]

theorem readBytes_writeBytes_inside {buf : List Nat} {off : Nat} {v r : List Nat}
    (h : writeBytes buf off v = some r) (o n : Nat) (h1 : off ≤ o)
    (h2 : o + n ≤ off + v.length) : readBytes r o n = readBytes v (o - off) n := by
  apply List.ext_getElem?
  intro t
  rw [getElem?_readBytes, getElem?_readBytes, getElem?_writeBytes h]
  by_cases ht : t < n
  · simp only [if_pos ht]
    rw [if_neg (by omega), if_pos (by omega)]; congr 1; omega
  · simp only [if_neg ht]

theorem readBytes_readBytes (buf : List Nat) (s m o n : Nat) (h : o + n ≤ m) :
    readBytes (readBytes buf s m) o n = readBytes buf (s + o) n := by
  apply List.ext_getElem?
  intro t
  rw [getElem?_readBytes, getElem?_readBytes, getElem?_readBytes]
  by_cases ht : t < n
  · simp only [if_pos ht]; rw [if_pos (by omega)]; congr 1; omega
  · simp only [if_neg ht]

theorem length_realloc (buf : List Nat) (sz : Nat) : (realloc buf sz).length = sz := by
  simp [realloc]; omega

theorem readBytes_realloc (buf : List Nat) (sz o n : Nat) (h1 : o + n ≤ buf.length)
    (h2 : o + n ≤ sz) : readBytes (realloc buf sz) o n = readBytes buf o n := by
  apply List.ext_getElem?
  intro t
  rw [getElem?_readBytes, getElem?_readBytes]
  by_cases ht : t < n
  · simp only [if_pos ht]
    unfold realloc
    rw [List.getElem?_append_left (by simp; omega), List.getElem?_take, if_pos (by omega)]
  · simp only [if_neg ht]

/-! ## Insertion -/

theorem slot_le {j i : Nat} (es : Nat) (h : j < i) : j * es + es ≤ i * es := by
  have := Nat.mul_le_mul_right es (Nat.succ_le_of_lt h)
  rw [Nat.succ_mul] at this
  exact this

theorem slot_le' {j i : Nat} (es : Nat) (h : j ≤ i) : j * es ≤ i * es :=
  Nat.mul_le_mul_right es h

theorem W_MAX_pos (c : Nat) : 4 ≤ W_MAX 4 c := by
  unfold W_MAX; split <;> omega

theorem w_arr_grow_spec (arr : w_arr_t) (hok : w_arr_ok arr) :
    (w_arr_grow arr).elem_size = arr.elem_size ∧ (w_arr_grow arr).len = arr.len ∧
    arr.len < (w_arr_grow arr).cap ∧
    (w_arr_grow arr).data.length = (w_arr_grow arr).cap * arr.elem_size ∧
    ∀ o n, o + n ≤ arr.len * arr.elem_size →
      readBytes (w_arr_grow arr).data o n = readBytes arr.data o n := by
  obtain ⟨hd, hl⟩ := hok
  unfold w_arr_grow
  by_cases hc : arr.len ≥ arr.cap
  · rw [if_pos hc]
    have h4 := W_MAX_pos (arr.cap / 2)
    refine ⟨rfl, rfl, by simp only; omega, ?_, ?_⟩
    · simp only [length_realloc]; exact Nat.mul_comm _ _
    · intro o n hon
      have h1 := slot_le' arr.elem_size hl
      have h2 : arr.cap * arr.elem_size ≤
          arr.elem_size * (arr.cap + W_MAX 4 (arr.cap / 2)) := by
        rw [Nat.mul_comm arr.elem_size]
        exact slot_le' _ (by omega)
      exact readBytes_realloc _ _ _ _ (by omega) (by omega)
  · rw [if_neg hc]
    exact ⟨rfl, rfl, by omega, hd, fun _ _ _ => rfl⟩

theorem w_arr_insert_impl_eq (arr : w_arr_t) (i : Nat) :
    w_arr_insert_impl arr i =
      if i < (w_arr_grow arr).len then
        (memmove (w_arr_grow arr).data ((i + 1) * (w_arr_grow arr).elem_size)
            (i * (w_arr_grow arr).elem_size)
            (((w_arr_grow arr).len - i) * (w_arr_grow arr).elem_size)).map
          fun d => { w_arr_grow arr with data := d, len := (w_arr_grow arr).len + 1 }
      else some { w_arr_grow arr with len := (w_arr_grow arr).len + 1 } := rfl

theorem w_arr_insert_impl_spec (arr : w_arr_t) (i : Nat) (hok : w_arr_ok arr)
    (hi : i ≤ arr.len) :
    ∃ a, w_arr_insert_impl arr i = some a ∧ a.len = arr.len + 1 ∧
      a.elem_size = arr.elem_size ∧ w_arr_ok a ∧
      (∀ j, j < i → w_arr_get arr.elem_size a j = w_arr_get arr.elem_size arr j) ∧
      (∀ j, i ≤ j → j < arr.len →
        w_arr_get arr.elem_size a (j + 1) = w_arr_get arr.elem_size arr j) := by
  obtain ⟨hes, hlen, hcap, hdat, hrd⟩ := w_arr_grow_spec arr hok
  rw [w_arr_insert_impl_eq, hes, hlen]
  set es := arr.elem_size with hes'
  have hcap' : arr.len * es + es ≤ (w_arr_grow arr).cap * es := slot_le es hcap
  by_cases hlt : i < arr.len
  · rw [if_pos hlt]
    have hsub : i * es + (arr.len - i) * es = arr.len * es := by
      rw [← Nat.add_mul]; congr 1; omega
    have hsucc : (i + 1) * es = i * es + es := Nat.succ_mul i es
    have hsrc : i * es + (arr.len - i) * es ≤ (w_arr_grow arr).data.length := by omega
    have hrl : (readBytes (w_arr_grow arr).data (i * es) ((arr.len - i) * es)).length
        = (arr.len - i) * es := length_readBytes _ _ _ hsrc
    have hmm : ∃ d, memmove (w_arr_grow arr).data ((i + 1) * es) (i * es)
        ((arr.len - i) * es) = some d ∧
        writeBytes (w_arr_grow arr).data ((i + 1) * es)
          (readBytes (w_arr_grow arr).data (i * es) ((arr.len - i) * es)) = some d := by
      unfold memmove
      rw [if_pos hsrc]
      unfold writeBytes
      rw [if_pos (by rw [hrl]; omega)]
      exact ⟨_, rfl, rfl⟩
    obtain ⟨d, hd, hw⟩ := hmm
    rw [hd]
    refine ⟨_, rfl, rfl, hes, ⟨?_, ?_⟩, ?_, ?_⟩
    · show d.length = (w_arr_grow arr).cap * (w_arr_grow arr).elem_size
      rw [length_writeBytes hw, hdat, hes]
    · show arr.len + 1 ≤ (w_arr_grow arr).cap
      omega
    · intro j hj
      have := slot_le es hj
      show readBytes d (j * es) es = readBytes arr.data (j * es) es
      rw [readBytes_writeBytes_disjoint hw _ _ (Or.inl (by omega))]
      have := slot_le' es hi
      exact hrd _ _ (by omega)
    · intro j hij hj
      have h1 := slot_le' es hij
      have h2 := slot_le es hj
      have hsj : (j + 1) * es = j * es + es := Nat.succ_mul j es
      show readBytes d ((j + 1) * es) es = readBytes arr.data (j * es) es
      rw [readBytes_writeBytes_inside hw _ _ (by omega) (by rw [hrl]; omega),
        readBytes_readBytes _ _ _ _ _ (by omega)]
      have : i * es + ((j + 1) * es - (i + 1) * es) = j * es := by omega
      rw [this]
      exact hrd _ _ (by omega)
  · rw [if_neg hlt]
    refine ⟨_, rfl, rfl, hes, ⟨?_, ?_⟩, ?_, ?_⟩
    · show (w_arr_grow arr).data.length = (w_arr_grow arr).cap * (w_arr_grow arr).elem_size
      rw [hdat, hes]
    · show arr.len + 1 ≤ (w_arr_grow arr).cap
      omega
    · intro j hj
      have := slot_le es hj
      have := slot_le' es hi
      exact hrd _ _ (by omega)
    · intro j hij hj
      omega

theorem list_insert_of_pointwise {α : Type} (l l' : List α) (i : Nat) (x : α)
    (hl : l'.length = l.length + 1) (hi : i ≤ l.length)
    (hlt : ∀ j, j < i → l'[j]? = l[j]?) (hat : l'[i]? = some x)
    (hgt : ∀ j, i ≤ j → j < l.length → l'[j + 1]? = l[j]?) :
    l' = l.take i ++ x :: l.drop i := by
  apply List.ext_getElem?
  intro k
  have htl : (l.take i).length = i := by simp; omega
  by_cases h1 : k < i
  · rw [List.getElem?_append_left (by omega), List.getElem?_take, if_pos h1]
    exact hlt k h1
  · rw [List.getElem?_append_right (by omega), htl]
    by_cases h2 : k = i
    · subst h2; simpa using hat
    · obtain ⟨m, rfl⟩ : ∃ m, k = m + 1 := ⟨k - 1, by omega⟩
      have : m + 1 - i = (m - i) + 1 := by omega
      rw [this, List.getElem?_cons_succ, List.getElem?_drop]
      have hm : i + (m - i) = m := by omega
      rw [hm]
      by_cases h3 : m < l.length
      · exact hgt m (by omega) h3
      · rw [List.getElem?_eq_none (by omega), List.getElem?_eq_none (by omega)]

theorem getElem?_w_arr_elems (arr : w_arr_t) (j : Nat) :
    (w_arr_elems arr)[j]? =
      if j < arr.len then some (w_arr_get arr.elem_size arr j) else none := by
  unfold w_arr_elems
  rw [List.getElem?_map]
  by_cases h : j < arr.len
  · rw [List.getElem?_range h, if_pos h]; rfl
  · rw [List.getElem?_eq_none (by simpa using h), if_neg h]; rfl

theorem length_w_arr_elems (arr : w_arr_t) : (w_arr_elems arr).length = arr.len := by
  simp [w_arr_elems]

/-- C1. For a well-formed array (buffer of `cap` slots, `len ≤ cap`), every index
`i ≤ len` and every value `x` of the element width, `w_arr_insert` succeeds, leaves
length `len + 1`, and the contents are the old ones with `x` inserted at `i`: slots
below `i` are unchanged, slot `i` holds `x`, and the element formerly at `j ≥ i` is at
`j + 1`. -/
theorem w_arr_insert_contents (arr : w_arr_t) (i : Nat) (x : List Nat)
    (hok : w_arr_ok arr) (hi : i ≤ arr.len) (hx : x.length = arr.elem_size) :
    ∃ a, w_arr_insert arr i x = some a ∧ a.len = arr.len + 1 ∧
      a.elem_size = arr.elem_size ∧
      w_arr_elems a = (w_arr_elems arr).take i ++ x :: (w_arr_elems arr).drop i ∧
      (∀ j, j < i → w_arr_get arr.elem_size a j = w_arr_get arr.elem_size arr j) ∧
      w_arr_get arr.elem_size a i = x ∧
      (∀ j, i ≤ j → j < arr.len →
        w_arr_get arr.elem_size a (j + 1) = w_arr_get arr.elem_size arr j) := by
  obtain ⟨b, hb, hblen, hbes, ⟨hbdat, hbcap⟩, hblt, hbgt⟩ := w_arr_insert_impl_spec arr i hok hi
  set es := arr.elem_size with hes
  have h1 : i * es + es ≤ b.data.length := by
    rw [hbdat, hbes]; exact slot_le es (by omega)
  have hw : ∃ d, writeBytes b.data (i * x.length) x = some d := by
    unfold writeBytes
    rw [if_pos (by rw [hx]; exact h1)]
    exact ⟨_, rfl⟩
  obtain ⟨d, hd⟩ := hw
  have hins : w_arr_insert arr i x = some { b with data := d } := by
    unfold w_arr_insert w_arr_set
    rw [hb, Option.some_bind, hd]; rfl
  have hlt : ∀ j, j < i → w_arr_get es { b with data := d } j = w_arr_get es arr j := by
    intro j hj
    rw [← hblt j hj]
    have := slot_le es hj
    show readBytes d (j * es) es = readBytes b.data (j * es) es
    exact readBytes_writeBytes_disjoint hd _ _ (Or.inl (by rw [hx]; omega))
  have hat : w_arr_get es { b with data := d } i = x := by
    show readBytes d (i * es) es = x
    have := readBytes_writeBytes_same hd
    rwa [hx] at this
  have hgt : ∀ j, i ≤ j → j < arr.len →
      w_arr_get es { b with data := d } (j + 1) = w_arr_get es arr j := by
    intro j hij hj
    rw [← hbgt j hij hj]
    have := slot_le' es hij
    have hsj : (j + 1) * es = j * es + es := Nat.succ_mul j es
    show readBytes d ((j + 1) * es) es = readBytes b.data ((j + 1) * es) es
    exact readBytes_writeBytes_disjoint hd _ _ (Or.inr (by rw [hx]; omega))
  refine ⟨_, hins, hblen, hbes, ?_, hlt, hat, hgt⟩
  apply list_insert_of_pointwise
  · rw [length_w_arr_elems, length_w_arr_elems]; exact hblen
  · rw [length_w_arr_elems]; exact hi
  · intro j hj
    rw [getElem?_w_arr_elems, getElem?_w_arr_elems]
    show (if j < b.len then some (w_arr_get b.elem_size _ j) else none) = _
    rw [if_pos (by omega), if_pos (by omega), hbes]
    exact congrArg some (hlt j hj)
  · rw [getElem?_w_arr_elems]
    show (if i < b.len then some (w_arr_get b.elem_size _ i) else none) = _
    rw [if_pos (by omega), hbes]
    exact congrArg some hat
  · intro j hij hj
    rw [length_w_arr_elems] at hj
    rw [getElem?_w_arr_elems, getElem?_w_arr_elems]
    show (if j + 1 < b.len then some (w_arr_get b.elem_size _ (j + 1)) else none) = _
    rw [if_pos (by omega), if_pos hj, hbes]
    exact congrArg some (hgt j hij hj)

/-- Witness for C1: inserting the 4-byte value 20 at index 1 of the array of ints
`[10, 30]` (built by `w_arr_new_ints`, so `len = cap = 2` and the insert must grow). -/
theorem w_arr_insert_contents_witness :
    ∃ a, w_arr_insert (w_arr_new_ints [10, 30]) 1 (le_bytes 4 20) = some a ∧
      a.len = 3 ∧ a.elem_size = 4 ∧
      w_arr_elems a = (w_arr_elems (w_arr_new_ints [10, 30])).take 1 ++
        le_bytes 4 20 :: (w_arr_elems (w_arr_new_ints [10, 30])).drop 1 ∧
      (∀ j, j < 1 → w_arr_get 4 a j = w_arr_get 4 (w_arr_new_ints [10, 30]) j) ∧
      w_arr_get 4 a 1 = le_bytes 4 20 ∧
      (∀ j, 1 ≤ j → j < 2 → w_arr_get 4 a (j + 1) = w_arr_get 4 (w_arr_new_ints [10, 30]) j) :=
  w_arr_insert_contents (w_arr_new_ints [10, 30]) 1 (le_bytes 4 20)
    (by decide) (by decide) (by decide)

/-! ## Removal and slicing, where the code is defined -/

/-- When the block move stays inside the buffer (`len + 2 * n ≤ cap`), `w_arr_remove`
deletes the slots `i .. i+n-1`. -/
theorem w_arr_remove_in_bounds (arr : w_arr_t) (i n : Nat) (hok : w_arr_ok arr)
    (hin : i + n ≤ arr.len) (hroom : arr.len + 2 * n ≤ arr.cap) :
    ∃ a, w_arr_remove arr i n = some a ∧ a.len = arr.len - n ∧
      a.elem_size = arr.elem_size ∧ a.cap = arr.cap ∧ w_arr_ok a ∧
      w_arr_elems a = (w_arr_elems arr).take i ++ (w_arr_elems arr).drop (i + n) := by
  obtain ⟨hdat, hcap⟩ := hok
  set es := arr.elem_size with hes
  have hcnt : (i + n) * es + (arr.len - i + n) * es = (arr.len + 2 * n) * es := by
    rw [← Nat.add_mul]; congr 1; omega
  have hroom' : (arr.len + 2 * n) * es ≤ arr.cap * es := slot_le' es hroom
  have hsrc : (i + n) * es + (arr.len - i + n) * es ≤ arr.data.length := by omega
  have hrl : (readBytes arr.data ((i + n) * es) ((arr.len - i + n) * es)).length
      = (arr.len - i + n) * es := length_readBytes _ _ _ hsrc
  have hin' : i * es ≤ (i + n) * es := slot_le' es (by omega)
  have hmm : ∃ d, memmove arr.data (i * es) ((i + n) * es) ((arr.len - i + n) * es) = some d ∧
      writeBytes arr.data (i * es)
        (readBytes arr.data ((i + n) * es) ((arr.len - i + n) * es)) = some d := by
    unfold memmove
    rw [if_pos hsrc]
    unfold writeBytes
    rw [if_pos (by rw [hrl]; omega)]
    exact ⟨_, rfl, rfl⟩
  obtain ⟨d, hd, hw⟩ := hmm
  have hrem : w_arr_remove arr i n = some { arr with data := d, len := arr.len - n } := by
    unfold w_arr_remove
    rw [hd]; rfl
  refine ⟨_, hrem, rfl, rfl, rfl, ⟨?_, ?_⟩, ?_⟩
  · show d.length = arr.cap * arr.elem_size
    rw [length_writeBytes hw, hdat]
  · show arr.len - n ≤ arr.cap
    omega
  · apply List.ext_getElem?
    intro k
    have htl : ((w_arr_elems arr).take i).length = i := by
      rw [List.length_take, length_w_arr_elems]; omega
    rw [getElem?_w_arr_elems]
    show (if k < arr.len - n then some (readBytes d (k * es) es) else none) = _
    by_cases hk : k < i
    · rw [List.getElem?_append_left (by omega), List.getElem?_take, if_pos hk,
        getElem?_w_arr_elems, if_pos (by omega), if_pos (by omega)]
      have := slot_le es hk
      rw [readBytes_writeBytes_disjoint hw _ _ (Or.inl (by omega))]
      rfl
    · rw [List.getElem?_append_right (by omega), htl, List.getElem?_drop,
        getElem?_w_arr_elems]
      have e : i + n + (k - i) = k + n := by omega
      rw [e]
      by_cases hk2 : k < arr.len - n
      · rw [if_pos hk2, if_pos (by omega)]
        have h1 := slot_le' es (Nat.le_of_not_lt hk)
        have h2 : k * es + es ≤ (arr.len - n) * es := slot_le es hk2
        have h3 : (arr.len - n) * es ≤ i * es + (arr.len - i + n) * es := by
          rw [← Nat.add_mul]; exact slot_le' es (by omega)
        have h4 : (i + n) * es + (k * es - i * es) = (k + n) * es := by
          have a1 : (i + n) * es = i * es + n * es := Nat.add_mul _ _ _
          have a2 : (k + n) * es = k * es + n * es := Nat.add_mul _ _ _
          omega
        rw [readBytes_writeBytes_inside hw _ _ h1 (by rw [hrl]; omega),
          readBytes_readBytes _ _ _ _ _ (by omega), h4]
        rfl
      · rw [if_neg hk2, if_neg (by omega)]

/-- When the byte offset `i` is also the offset of slot `i` (one-byte elements, or
`i = 0`), `w_arr_slice` returns a new handle of length and capacity `n` holding the
elements `i .. i+n-1`. -/
theorem w_arr_slice_byte_offset (arr : w_arr_t) (i n : Nat) (hok : w_arr_ok arr)
    (hin : i + n ≤ arr.len) (hoff : arr.elem_size = 1 ∨ i = 0) :
    ∃ b, w_arr_slice arr i n = some b ∧ b.elem_size = arr.elem_size ∧ b.len = n ∧
      b.cap = n ∧ w_arr_elems b = ((w_arr_elems arr).drop i).take n := by
  obtain ⟨hdat, hcap⟩ := hok
  set es := arr.elem_size with hes
  have hi : i * es = i := by
    rcases hoff with h | h
    · rw [h, Nat.mul_one]
    · rw [h, Nat.zero_mul]
  have hsum : i + n * es = (i + n) * es := by rw [Nat.add_mul, hi]
  have hle : (i + n) * es ≤ arr.cap * es := slot_le' es (by omega)
  have hsrc : i + n * es ≤ arr.data.length := by omega
  have hrl : (readBytes arr.data i (n * es)).length = n * es := length_readBytes _ _ _ hsrc
  have hmm : ∃ d, memcpy (malloc (n * es)) 0 arr.data i (n * es) = some d ∧
      writeBytes (malloc (n * es)) 0 (readBytes arr.data i (n * es)) = some d := by
    unfold memcpy
    rw [if_pos hsrc]
    unfold writeBytes
    rw [if_pos (by rw [hrl]; simp [malloc])]
    exact ⟨_, rfl, rfl⟩
  obtain ⟨d, hd, hw⟩ := hmm
  have hsl : w_arr_slice arr i n =
      some { elem_size := es, len := n, cap := n, data := d } := by
    unfold w_arr_slice
    dsimp only
    rw [hd]; rfl
  refine ⟨_, hsl, rfl, rfl, rfl, ?_⟩
  apply List.ext_getElem?
  intro k
  rw [getElem?_w_arr_elems, List.getElem?_take, List.getElem?_drop, getElem?_w_arr_elems]
  show (if k < n then some (readBytes d (k * es) es) else none) = _
  by_cases hk : k < n
  · rw [if_pos hk, if_pos hk, if_pos (by omega)]
    have h2 : k * es + es ≤ n * es := slot_le es hk
    rw [readBytes_writeBytes_inside hw _ _ (Nat.zero_le _) (by rw [hrl]; omega),
      readBytes_readBytes _ _ _ _ _ (by omega)]
    have : i + (k * es - 0) = (i + k) * es := by rw [Nat.add_mul, hi]; omega
    rw [this]
    rfl
  · rw [if_neg hk, if_neg hk]

/-! ## Chains -/

theorem w_slot_match_of_id (kp : List Nat) (kl : Nat) (it : w_slot_t)
    (h : w_slot_id it = (kl, kp.take kl)) : w_slot_match kp kl it = true := by
  have h1 : it.keylen = kl := congrArg Prod.fst h
  have h2 : it.key = kp.take kl := congrArg Prod.snd h
  simp [w_slot_match, h1, h2, List.take_take]

theorem w_slot_id_of_match (kp : List Nat) (kl : Nat) (it : w_slot_t)
    (hok : it.key.length = it.keylen) (h : w_slot_match kp kl it = true) :
    w_slot_id it = (kl, kp.take kl) := by
  simp only [w_slot_match, Bool.and_eq_true, beq_iff_eq] at h
  obtain ⟨h1, h2⟩ := h
  have h3 : it.key.take kl = it.key := List.take_of_length_le (by omega)
  rw [h3] at h2
  simp [w_slot_id, ← h1, h2]

theorem w_slot_match_both (kp1 : List Nat) (kl1 : Nat) (kp2 : List Nat) (kl2 : Nat)
    (it : w_slot_t) (h1 : w_slot_match kp1 kl1 it = true)
    (h2 : w_slot_match kp2 kl2 it = true) : (kl1, kp1.take kl1) = (kl2, kp2.take kl2) := by
  simp only [w_slot_match, Bool.and_eq_true, beq_iff_eq] at h1 h2
  obtain ⟨a1, b1⟩ := h1
  obtain ⟨a2, b2⟩ := h2
  have : kl1 = kl2 := by omega
  subst this
  rw [← b1, ← b2]

theorem w_slot_get_no_match (kp : List Nat) (kl : Nat) (c : List w_slot_t)
    (h : ∀ it ∈ c, w_slot_match kp kl it = false) : w_slot_get kp kl c = 0 := by
  induction c with
  | nil => rfl
  | cons it next ih =>
    rw [w_slot_get, h it (List.mem_cons_self _ _)]
    exact ih fun b hb => h b (List.mem_cons_of_mem _ hb)

theorem w_slot_remove_no_match (kp : List Nat) (kl : Nat) (c : List w_slot_t)
    (h : ∀ it ∈ c, w_slot_match kp kl it = false) : w_slot_remove kp kl c = c := by
  induction c with
  | nil => rfl
  | cons it next ih =>
    rw [w_slot_remove, h it (List.mem_cons_self _ _)]
    simp only [Bool.false_eq_true, if_false]
    rw [ih fun b hb => h b (List.mem_cons_of_mem _ hb)]

theorem w_slot_remove_sublist (kp : List Nat) (kl : Nat) (c : List w_slot_t) :
    (w_slot_remove kp kl c).Sublist c := by
  induction c with
  | nil => exact List.Sublist.refl _
  | cons it next ih =>
    rw [w_slot_remove]
    split
    · exact List.sublist_cons_self _ _
    · exact ih.cons₂ _

theorem w_chain_ok_remove (kp : List Nat) (kl : Nat) (c : List w_slot_t)
    (h : w_chain_ok c) : w_chain_ok (w_slot_remove kp kl c) := by
  have hs := (w_slot_remove_sublist kp kl c).map w_slot_id
  exact ⟨h.1.sublist hs, fun p hp => h.2 p (hs.subset hp)⟩

theorem w_slot_remove_clears (kp : List Nat) (kl : Nat) (c : List w_slot_t)
    (h : w_chain_ok c) : ∀ it ∈ w_slot_remove kp kl c, w_slot_match kp kl it = false := by
  induction c with
  | nil => intro it hit; cases hit
  | cons a next ih =>
    have hnext : w_chain_ok next :=
      ⟨(List.nodup_cons.mp h.1).2, fun p hp => h.2 p (List.mem_cons_of_mem _ hp)⟩
    rw [w_slot_remove]
    by_cases hm : w_slot_match kp kl a = true
    · rw [if_pos hm]
      intro it hit
      by_contra hne
      have hit' : w_slot_match kp kl it = true := by simpa using hne
      have ha : w_slot_id a = (kl, kp.take kl) :=
        w_slot_id_of_match kp kl a (h.2 _ (List.mem_cons_self _ _)) hm
      have hb : w_slot_id it = (kl, kp.take kl) :=
        w_slot_id_of_match kp kl it
          (h.2 _ (List.mem_cons_of_mem _ (List.mem_map_of_mem _ hit))) hit'
      exact (List.nodup_cons.mp h.1).1 (ha ▸ hb ▸ List.mem_map_of_mem _ hit)
    · rw [if_neg hm]
      intro it hit
      rcases List.mem_cons.mp hit with rfl | hit
      · simpa using hm
      · exact ih hnext it hit

theorem w_slot_get_remove_other (kp1 : List Nat) (kl1 : Nat) (kp2 : List Nat) (kl2 : Nat)
    (hne : (kl1, kp1.take kl1) ≠ (kl2, kp2.take kl2)) (c : List w_slot_t) :
    w_slot_get kp2 kl2 (w_slot_remove kp1 kl1 c) = w_slot_get kp2 kl2 c := by
  induction c with
  | nil => rfl
  | cons a next ih =>
    rw [w_slot_remove]
    by_cases hm : w_slot_match kp1 kl1 a = true
    · rw [if_pos hm]
      have h2 : w_slot_match kp2 kl2 a = false := by
        by_contra h
        exact hne (w_slot_match_both kp1 kl1 kp2 kl2 a hm (by simpa using h))
      rw [w_slot_get, h2]
      simp
    · rw [if_neg hm, w_slot_get, w_slot_get, ih]

theorem w_slot_set_none (kp : List Nat) (kl : Nat) (d : Int) (c : List w_slot_t)
    (h : w_slot_set kp kl d c = none) : ∀ it ∈ c, w_slot_match kp kl it = false := by
  induction c with
  | nil => intro it hit; cases hit
  | cons a next ih =>
    rw [w_slot_set] at h
    by_cases hm : w_slot_match kp kl a = true
    · rw [if_pos hm] at h; cases h
    · rw [if_neg hm] at h
      intro it hit
      rcases List.mem_cons.mp hit with rfl | hit
      · simpa using hm
      · exact ih (by simpa using h) it hit

theorem w_slot_set_some (kp : List Nat) (kl : Nat) (d : Int) (c c' : List w_slot_t)
    (h : w_slot_set kp kl d c = some c') :
    c'.map w_slot_id = c.map w_slot_id ∧ w_slot_get kp kl c' = d ∧
    ∀ kp2 kl2, (kl, kp.take kl) ≠ (kl2, kp2.take kl2) →
      w_slot_get kp2 kl2 c' = w_slot_get kp2 kl2 c := by
  induction c generalizing c' with
  | nil => cases h
  | cons a next ih =>
    rw [w_slot_set] at h
    by_cases hm : w_slot_match kp kl a = true
    · rw [if_pos hm] at h
      cases h
      have hm' : w_slot_match kp kl { a with data := d } = true := hm
      refine ⟨rfl, ?_, ?_⟩
      · rw [w_slot_get, if_pos hm']
      · intro kp2 kl2 hne
        have h2 : w_slot_match kp2 kl2 a = false := by
          by_contra h
          exact hne (w_slot_match_both kp kl kp2 kl2 a hm (by simpa using h))
        have h2' : w_slot_match kp2 kl2 { a with data := d } = false := h2
        rw [w_slot_get, w_slot_get, h2, h2']
        simp
    · rw [if_neg hm] at h
      cases hn : w_slot_set kp kl d next with
      | none => rw [hn] at h; cases h
      | some n' =>
        rw [hn] at h
        cases h
        obtain ⟨i1, i2, i3⟩ := ih n' hn
        refine ⟨by simp [i1], ?_, ?_⟩
        · rw [w_slot_get, if_neg hm, i2]
        · intro kp2 kl2 hne
          rw [w_slot_get, w_slot_get, i3 kp2 kl2 hne]

/-! ## Map operations, unfolded -/

theorem w_map_key_le (map : w_map_t) (key : w_key) :
    (w_map_key map key).2 ≤ (w_map_key map key).1.length := by
  unfold w_map_key
  split
  · exact List.Sublist.length_le (List.takeWhile_sublist _)
  · simp [le_bytes]

theorem w_map_key_congr {m m' : w_map_t} (h : m'.key_is_ptr = m.key_is_ptr) (key : w_key) :
    w_map_key m' key = w_map_key m key := by
  unfold w_map_key; rw [h]

theorem w_map_hash_take (cs : Bool) (kp : List Nat) (kl : Nat) :
    w_map_hash cs (kp.take kl) kl = w_map_hash cs kp kl := by
  unfold w_map_hash; rw [List.take_take, Nat.min_self]

theorem w_map_get_eq (cs : Bool) (m : w_map_t) (key : w_key) :
    w_map_get cs m key =
      (w_key_slot cs m key).map fun b =>
        w_slot_get (w_map_key m key).1 (w_map_key m key).2 (m.slots b) := by
  unfold w_map_get w_key_slot
  dsimp only
  cases w_map_slot (w_map_hash cs (w_map_key m key).1 (w_map_key m key).2) <;> rfl

theorem w_map_remove_eq (cs : Bool) (m : w_map_t) (key : w_key) :
    w_map_remove cs m key =
      (w_key_slot cs m key).map fun b =>
        { m with
          slots := Function.update m.slots b
                     (w_slot_remove (w_map_key m key).1 (w_map_key m key).2 (m.slots b)) } := by
  unfold w_map_remove w_key_slot
  dsimp only
  cases w_map_slot (w_map_hash cs (w_map_key m key).1 (w_map_key m key).2) <;> rfl

theorem w_map_set_eq (cs : Bool) (m : w_map_t) (key : w_key) (d : Int) :
    w_map_set cs m key d =
      (w_key_slot cs m key).map fun b =>
        match w_slot_set (w_map_key m key).1 (w_map_key m key).2 d (m.slots b) with
        | some chain => { m with slots := Function.update m.slots b chain }
        | none =>
          { m with
            slots := Function.update m.slots b
              ({ key := (w_map_key m key).1.take (w_map_key m key).2, data := d,
                 keylen := (w_map_key m key).2 } :: m.slots b),
            len := m.len + 1 } := by
  unfold w_map_set w_key_slot
  dsimp only
  cases w_map_slot (w_map_hash cs (w_map_key m key).1 (w_map_key m key).2) with
  | none => rfl
  | some b =>
    dsimp only [Option.map_some']
    cases w_slot_set (w_map_key m key).1 (w_map_key m key).2 d (m.slots b) <;> rfl

theorem w_map_set_key_is_ptr {cs : Bool} {m m' : w_map_t} {key : w_key} {d : Int}
    (h : w_map_set cs m key d = some m') : m'.key_is_ptr = m.key_is_ptr := by
  rw [w_map_set_eq] at h
  cases hb : w_key_slot cs m key with
  | none => rw [hb] at h; cases h
  | some b =>
    rw [hb] at h
    simp only [Option.map_some', Option.some.injEq] at h
    subst h
    cases w_slot_set (w_map_key m key).1 (w_map_key m key).2 d (m.slots b) <;> rfl

theorem w_map_remove_key_is_ptr {cs : Bool} {m m' : w_map_t} {key : w_key}
    (h : w_map_remove cs m key = some m') : m'.key_is_ptr = m.key_is_ptr := by
  rw [w_map_remove_eq] at h
  cases hb : w_key_slot cs m key with
  | none => rw [hb] at h; cases h
  | some b =>
    rw [hb] at h
    simp only [Option.map_some', Option.some.injEq] at h
    subst h
    rfl

theorem w_key_slot_congr (cs : Bool) {m m' : w_map_t} (h : m'.key_is_ptr = m.key_is_ptr)
    (key : w_key) : w_key_slot cs m' key = w_key_slot cs m key := by
  unfold w_key_slot; rw [w_map_key_congr h]

theorem w_key_id_congr {m m' : w_map_t} (h : m'.key_is_ptr = m.key_is_ptr)
    (key : w_key) : w_key_id m' key = w_key_id m key := by
  unfold w_key_id; rw [w_map_key_congr h]

/-! ## Invariant of the reachable maps -/

theorem w_chain_ok_nil : w_chain_ok [] :=
  ⟨List.nodup_nil, fun _ hp => by cases hp⟩

theorem w_map_ok_new (cs : Bool) (key_is_ptr : Int) : w_map_ok cs (w_map_new key_is_ptr) :=
  fun _ => ⟨w_chain_ok_nil, fun _ hp => by cases hp⟩

theorem w_map_ok_set {cs : Bool} {m m' : w_map_t} {key : w_key} {d : Int}
    (hok : w_map_ok cs m) (h : w_map_set cs m key d = some m') : w_map_ok cs m' := by
  rw [w_map_set_eq] at h
  cases hb : w_key_slot cs m key with
  | none => rw [hb] at h; cases h
  | some b =>
    rw [hb] at h
    simp only [Option.map_some', Option.some.injEq] at h
    intro b'
    cases hs : w_slot_set (w_map_key m key).1 (w_map_key m key).2 d (m.slots b) with
    | some chain =>
      rw [hs] at h
      subst h
      obtain ⟨hid, -, -⟩ := w_slot_set_some _ _ _ _ _ hs
      by_cases hbb : b' = b
      · subst hbb
        simp only [Function.update_same]
        unfold w_chain_ok
        rw [hid]
        exact hok b'
      · simp only [Function.update_noteq hbb]
        exact hok b'
    | none =>
      rw [hs] at h
      subst h
      by_cases hbb : b' = b
      · subst hbb
        simp only [Function.update_same]
        have hno := w_slot_set_none _ _ _ _ hs
        have hlen : ((w_map_key m key).1.take (w_map_key m key).2).length
            = (w_map_key m key).2 := by
          rw [List.length_take]; exact Nat.min_eq_left (w_map_key_le m key)
        refine ⟨⟨?_, ?_⟩, ?_⟩
        · rw [List.map_cons, List.nodup_cons]
          refine ⟨?_, (hok b').1.1⟩
          intro hmem
          obtain ⟨it, hit, hitid⟩ := List.mem_map.mp hmem
          have := w_slot_match_of_id _ _ it hitid
          rw [hno it hit] at this
          cases this
        · intro p hp
          rw [List.map_cons] at hp
          rcases List.mem_cons.mp hp with rfl | hp
          · exact hlen
          · exact (hok b').1.2 p hp
        · intro p hp
          rw [List.map_cons] at hp
          rcases List.mem_cons.mp hp with rfl | hp
          · show w_map_slot (w_map_hash cs ((w_map_key m key).1.take (w_map_key m key).2)
              (w_map_key m key).2) = some b'
            rw [w_map_hash_take]
            exact hb
          · exact (hok b').2 p hp
      · simp only [Function.update_noteq hbb]
        exact hok b'

theorem w_map_ok_remove {cs : Bool} {m m' : w_map_t} {key : w_key}
    (hok : w_map_ok cs m) (h : w_map_remove cs m key = some m') : w_map_ok cs m' := by
  rw [w_map_remove_eq] at h
  cases hb : w_key_slot cs m key with
  | none => rw [hb] at h; cases h
  | some b =>
    rw [hb] at h
    simp only [Option.map_some', Option.some.injEq] at h
    subst h
    intro b'
    by_cases hbb : b' = b
    · subst hbb
      simp only [Function.update_same]
      refine ⟨w_chain_ok_remove _ _ _ (hok b').1, fun p hp => (hok b').2 p ?_⟩
      exact ((w_slot_remove_sublist _ _ _).map w_slot_id).subset hp
    · simp only [Function.update_noteq hbb]
      exact hok b'

theorem w_map_ok_of_reachable {cs : Bool} {m : w_map_t} (h : w_map_reachable cs m) :
    w_map_ok cs m := by
  induction h with
  | new kip => exact w_map_ok_new cs kip
  | set key d _ hs ih => exact w_map_ok_set ih hs
  | remove key _ hr ih => exact w_map_ok_remove ih hr

/-! ## What the map operations do on keys whose bucket index is in range -/

theorem w_slot_get_of_mem (kp : List Nat) (kl : Nat) (c : List w_slot_t) (hok : w_chain_ok c)
    (it : w_slot_t) (hit : it ∈ c) (hm : w_slot_match kp kl it = true) :
    w_slot_get kp kl c = it.data := by
  induction c with
  | nil => cases hit
  | cons a next ih =>
    have hnext : w_chain_ok next :=
      ⟨(List.nodup_cons.mp hok.1).2, fun p hp => hok.2 p (List.mem_cons_of_mem _ hp)⟩
    rw [w_slot_get]
    by_cases hma : w_slot_match kp kl a = true
    · rw [if_pos hma]
      rcases List.mem_cons.mp hit with rfl | hit'
      · rfl
      · exfalso
        have ha : w_slot_id a = (kl, kp.take kl) :=
          w_slot_id_of_match kp kl a (hok.2 _ (List.mem_cons_self _ _)) hma
        have hb : w_slot_id it = (kl, kp.take kl) :=
          w_slot_id_of_match kp kl it
            (hok.2 _ (List.mem_cons_of_mem _ (List.mem_map_of_mem _ hit'))) hm
        exact (List.nodup_cons.mp hok.1).1 (ha ▸ hb ▸ List.mem_map_of_mem _ hit')
    · rw [if_neg hma]
      rcases List.mem_cons.mp hit with rfl | hit'
      · exact absurd hm hma
      · exact ih hnext hit'

theorem w_slot_countP_le_one (kp : List Nat) (kl : Nat) (c : List w_slot_t)
    (hok : w_chain_ok c) : c.countP (w_slot_match kp kl) ≤ 1 := by
  induction c with
  | nil => simp
  | cons a next ih =>
    have hnext : w_chain_ok next :=
      ⟨(List.nodup_cons.mp hok.1).2, fun p hp => hok.2 p (List.mem_cons_of_mem _ hp)⟩
    by_cases hma : w_slot_match kp kl a = true
    · have hz : next.countP (w_slot_match kp kl) = 0 := by
        rw [List.countP_eq_zero]
        intro it hit hm
        have ha : w_slot_id a = (kl, kp.take kl) :=
          w_slot_id_of_match kp kl a (hok.2 _ (List.mem_cons_self _ _)) hma
        have hb : w_slot_id it = (kl, kp.take kl) :=
          w_slot_id_of_match kp kl it
            (hok.2 _ (List.mem_cons_of_mem _ (List.mem_map_of_mem _ hit))) hm
        exact (List.nodup_cons.mp hok.1).1 (ha ▸ hb ▸ List.mem_map_of_mem _ hit)
      rw [List.countP_cons_of_pos _ _ hma, hz]
    · rw [List.countP_cons_of_neg _ _ hma]
      exact ih hnext

/-- After a defined `w_map_remove` of a key from a map that satisfies the invariant,
`w_map_get` of that key is defined and returns `0`. -/
theorem w_map_get_remove_same (cs : Bool) (m m' : w_map_t) (key : w_key)
    (hok : w_map_ok cs m) (h : w_map_remove cs m key = some m') :
    w_map_get cs m' key = some 0 := by
  have hk := w_map_remove_key_is_ptr h
  rw [w_map_get_eq, w_key_slot_congr cs hk, w_map_key_congr hk]
  rw [w_map_remove_eq] at h
  cases hb : w_key_slot cs m key with
  | none => rw [hb] at h; cases h
  | some b =>
    rw [hb] at h
    simp only [Option.map_some', Option.some.injEq] at h
    subst h
    simp only [Option.map_some', Function.update_same]
    rw [w_slot_get_no_match _ _ _ (w_slot_remove_clears _ _ _ (hok b).1)]

/-- A defined `w_map_remove` leaves `w_map_get` of every other key as it was. -/
theorem w_map_get_remove_other (cs : Bool) (m m' : w_map_t) (key key' : w_key)
    (hne : w_key_id m key ≠ w_key_id m key') (h : w_map_remove cs m key = some m') :
    w_map_get cs m' key' = w_map_get cs m key' := by
  have hk := w_map_remove_key_is_ptr h
  rw [w_map_get_eq, w_map_get_eq, w_key_slot_congr cs hk, w_map_key_congr hk]
  rw [w_map_remove_eq] at h
  cases hb : w_key_slot cs m key with
  | none => rw [hb] at h; cases h
  | some b =>
    rw [hb] at h
    simp only [Option.map_some', Option.some.injEq] at h
    subst h
    cases hb' : w_key_slot cs m key' with
    | none => rfl
    | some b' =>
      simp only [Option.map_some', Option.some.injEq]
      by_cases hbb : b' = b
      · subst hbb
        simp only [Function.update_same]
        exact w_slot_get_remove_other _ _ _ _ hne _
      · simp only [Function.update_noteq hbb]

/-- A defined `w_map_remove` of a key that no node of its bucket matches returns the map
it was given. -/
theorem w_map_remove_absent (cs : Bool) (m m' : w_map_t) (key : w_key)
    (habs : ∀ b, ∀ it ∈ m.slots b,
      w_slot_match (w_map_key m key).1 (w_map_key m key).2 it = false)
    (h : w_map_remove cs m key = some m') : m' = m := by
  rw [w_map_remove_eq] at h
  cases hb : w_key_slot cs m key with
  | none => rw [hb] at h; cases h
  | some b =>
    rw [hb] at h
    simp only [Option.map_some', Option.some.injEq] at h
    subst h
    rw [w_slot_remove_no_match _ _ _ (habs b), Function.update_eq_self]

/-- `w_map_remove` never changes the entry count `len`. -/
theorem w_map_remove_len (cs : Bool) (m m' : w_map_t) (key : w_key)
    (h : w_map_remove cs m key = some m') : m'.len = m.len := by
  rw [w_map_remove_eq] at h
  cases hb : w_key_slot cs m key with
  | none => rw [hb] at h; cases h
  | some b =>
    rw [hb] at h
    simp only [Option.map_some', Option.some.injEq] at h
    subst h
    rfl

/-- After a defined `w_map_set`, `w_map_get` of the same key returns the payload. -/
theorem w_map_get_set_same (cs : Bool) (m m' : w_map_t) (key : w_key) (d : Int)
    (h : w_map_set cs m key d = some m') : w_map_get cs m' key = some d := by
  have hk := w_map_set_key_is_ptr h
  rw [w_map_get_eq, w_key_slot_congr cs hk, w_map_key_congr hk]
  rw [w_map_set_eq] at h
  cases hb : w_key_slot cs m key with
  | none => rw [hb] at h; cases h
  | some b =>
    rw [hb] at h
    simp only [Option.map_some', Option.some.injEq] at h
    simp only [Option.map_some', Option.some.injEq]
    cases hs : w_slot_set (w_map_key m key).1 (w_map_key m key).2 d (m.slots b) with
    | some chain =>
      rw [hs] at h
      subst h
      simp only [Function.update_same]
      exact (w_slot_set_some _ _ _ _ _ hs).2.1
    | none =>
      rw [hs] at h
      subst h
      simp only [Function.update_same]
      rw [w_slot_get, if_pos (w_slot_match_of_id _ _ _ rfl)]

/-- A defined `w_map_set` leaves `w_map_get` of every other key as it was. -/
theorem w_map_get_set_other (cs : Bool) (m m' : w_map_t) (key key' : w_key) (d : Int)
    (hne : w_key_id m key ≠ w_key_id m key') (h : w_map_set cs m key d = some m') :
    w_map_get cs m' key' = w_map_get cs m key' := by
  have hk := w_map_set_key_is_ptr h
  rw [w_map_get_eq, w_map_get_eq, w_key_slot_congr cs hk, w_map_key_congr hk]
  rw [w_map_set_eq] at h
  cases hb : w_key_slot cs m key with
  | none => rw [hb] at h; cases h
  | some b =>
    rw [hb] at h
    simp only [Option.map_some', Option.some.injEq] at h
    cases hb' : w_key_slot cs m key' with
    | none => rfl
    | some b' =>
      simp only [Option.map_some', Option.some.injEq]
      cases hs : w_slot_set (w_map_key m key).1 (w_map_key m key).2 d (m.slots b) with
      | some chain =>
        rw [hs] at h
        subst h
        by_cases hbb : b' = b
        · subst hbb
          simp only [Function.update_same]
          exact (w_slot_set_some _ _ _ _ _ hs).2.2 _ _ hne
        · simp only [Function.update_noteq hbb]
      | none =>
        rw [hs] at h
        subst h
        by_cases hbb : b' = b
        · subst hbb
          simp only [Function.update_same]
          have h2 : w_slot_match (w_map_key m key').1 (w_map_key m key').2
              { key := (w_map_key m key).1.take (w_map_key m key).2, data := d,
                keylen := (w_map_key m key).2 } = false := by
            by_contra hc
            exact hne (w_slot_match_both _ _ _ _ _
              (w_slot_match_of_id (w_map_key m key).1 (w_map_key m key).2
                { key := (w_map_key m key).1.take (w_map_key m key).2, data := d,
                  keylen := (w_map_key m key).2 } rfl)
              (by simpa using hc))
          rw [w_slot_get, h2]
          simp
        · simp only [Function.update_noteq hbb]

theorem w_slot_set_some_mem (kp : List Nat) (kl : Nat) (d : Int) (c c' : List w_slot_t)
    (h : w_slot_set kp kl d c = some c') : ∃ it ∈ c', w_slot_match kp kl it = true := by
  induction c generalizing c' with
  | nil => cases h
  | cons a next ih =>
    rw [w_slot_set] at h
    by_cases hm : w_slot_match kp kl a = true
    · rw [if_pos hm] at h
      cases h
      exact ⟨_, List.mem_cons_self _ _, hm⟩
    · rw [if_neg hm] at h
      cases hn : w_slot_set kp kl d next with
      | none => rw [hn] at h; cases h
      | some n' =>
        rw [hn] at h
        cases h
        obtain ⟨it, hit, hmt⟩ := ih n' hn
        exact ⟨it, List.mem_cons_of_mem _ hit, hmt⟩

/-- After a defined `w_map_set` the bucket of the key holds a node that matches it. -/
theorem w_map_set_mem (cs : Bool) (m m' : w_map_t) (key : w_key) (d : Int)
    (h : w_map_set cs m key d = some m') :
    ∃ b, w_key_slot cs m key = some b ∧
      ∃ it ∈ m'.slots b, w_slot_match (w_map_key m key).1 (w_map_key m key).2 it = true := by
  rw [w_map_set_eq] at h
  cases hb : w_key_slot cs m key with
  | none => rw [hb] at h; cases h
  | some b =>
    rw [hb] at h
    simp only [Option.map_some', Option.some.injEq] at h
    refine ⟨b, rfl, ?_⟩
    cases hs : w_slot_set (w_map_key m key).1 (w_map_key m key).2 d (m.slots b) with
    | some chain =>
      rw [hs] at h
      subst h
      simp only [Function.update_same]
      exact w_slot_set_some_mem _ _ _ _ _ hs
    | none =>
      rw [hs] at h
      subst h
      simp only [Function.update_same]
      exact ⟨_, List.mem_cons_self _ _, w_slot_match_of_id _ _ _ rfl⟩

/-- A defined `w_map_set` of a key that some node of its bucket matches keeps `len`. -/
theorem w_map_set_len_of_mem (cs : Bool) (m m' : w_map_t) (key : w_key) (d : Int)
    (b : Fin W_NUM_MAP_SLOTS) (hb : w_key_slot cs m key = some b) (it : w_slot_t)
    (hit : it ∈ m.slots b)
    (hm : w_slot_match (w_map_key m key).1 (w_map_key m key).2 it = true)
    (h : w_map_set cs m key d = some m') : m'.len = m.len := by
  rw [w_map_set_eq, hb] at h
  simp only [Option.map_some', Option.some.injEq] at h
  cases hs : w_slot_set (w_map_key m key).1 (w_map_key m key).2 d (m.slots b) with
  | some chain =>
    rw [hs] at h
    subst h
    rfl
  | none =>
    have := w_slot_set_none _ _ _ _ hs it hit
    rw [hm] at this
    cases this

/-- A defined `w_map_set` of a key that no node of its bucket matches adds one to `len`. -/
theorem w_map_set_len_of_absent (cs : Bool) (m m' : w_map_t) (key : w_key) (d : Int)
    (habs : ∀ b, ∀ it ∈ m.slots b,
      w_slot_match (w_map_key m key).1 (w_map_key m key).2 it = false)
    (h : w_map_set cs m key d = some m') : m'.len = m.len + 1 := by
  rw [w_map_set_eq] at h
  cases hb : w_key_slot cs m key with
  | none => rw [hb] at h; cases h
  | some b =>
    rw [hb] at h
    simp only [Option.map_some', Option.some.injEq] at h
    cases hs : w_slot_set (w_map_key m key).1 (w_map_key m key).2 d (m.slots b) with
    | some chain =>
      obtain ⟨it, hit, hm⟩ := w_slot_set_some_mem _ _ _ _ _ hs
      have hid := (w_slot_set_some _ _ _ _ _ hs).1
      have : w_slot_id it ∈ (m.slots b).map w_slot_id := hid ▸ List.mem_map_of_mem _ hit
      obtain ⟨it0, hit0, hid0⟩ := List.mem_map.mp this
      have h0 := habs b it0 hit0
      have h1 : w_slot_match (w_map_key m key).1 (w_map_key m key).2 it0 = true := by
        have e1 : it0.keylen = it.keylen := congrArg Prod.fst hid0
        have e2 : it0.key = it.key := congrArg Prod.snd hid0
        unfold w_slot_match at hm ⊢
        rw [e1, e2]; exact hm
      rw [h0] at h1
      cases h1
    | none =>
      rw [hs] at h
      subst h
      rfl

/-- Overwrite: after two defined `w_map_set` calls with the same key on a map that
satisfies the invariant, `w_map_get` returns the second payload, `len` is what it was
after the first call, and exactly one node of the whole map matches the key. -/
theorem w_map_set_set_same (cs : Bool) (m m1 m2 : w_map_t) (key : w_key) (p1 p2 : Int)
    (hok : w_map_ok cs m) (h1 : w_map_set cs m key p1 = some m1)
    (h2 : w_map_set cs m1 key p2 = some m2) :
    w_map_get cs m2 key = some p2 ∧ m2.len = m1.len ∧
    ∃ b, w_key_slot cs m key = some b ∧
      (m2.slots b).countP (w_slot_match (w_map_key m key).1 (w_map_key m key).2) = 1 ∧
      ∀ b', b' ≠ b →
        (m2.slots b').countP (w_slot_match (w_map_key m key).1 (w_map_key m key).2) = 0 := by
  have hk1 := w_map_set_key_is_ptr h1
  have hok1 := w_map_ok_set hok h1
  have hok2 := w_map_ok_set hok1 h2
  obtain ⟨b, hb, it, hit, hm⟩ := w_map_set_mem cs m m1 key p1 h1
  have hb1 : w_key_slot cs m1 key = some b := by rw [w_key_slot_congr cs hk1]; exact hb
  have hkey1 : w_map_key m1 key = w_map_key m key := w_map_key_congr hk1 key
  refine ⟨w_map_get_set_same cs m1 m2 key p2 h2, ?_, b, hb, ?_, ?_⟩
  · exact w_map_set_len_of_mem cs m1 m2 key p2 b hb1 it hit (by rw [hkey1]; exact hm) h2
  · obtain ⟨b2, hb2, it2, hit2, hm2⟩ := w_map_set_mem cs m1 m2 key p2 h2
    rw [hb1] at hb2
    cases hb2
    rw [hkey1] at hm2
    have hle := w_slot_countP_le_one (w_map_key m key).1 (w_map_key m key).2 _ (hok2 b).1
    have hpos : 0 < (m2.slots b).countP
        (w_slot_match (w_map_key m key).1 (w_map_key m key).2) :=
      List.countP_pos_iff.mpr ⟨it2, hit2, hm2⟩
    omega
  · intro b' hbb
    rw [List.countP_eq_zero]
    intro it' hit' hm'
    have hid := w_slot_id_of_match _ _ it'
      ((hok2 b').1.2 _ (List.mem_map_of_mem _ hit')) hm'
    have hpl := (hok2 b').2 _ (List.mem_map_of_mem _ hit')
    rw [hid] at hpl
    simp only at hpl
    rw [w_map_hash_take] at hpl
    have : w_key_slot cs m key = some b' := hpl
    rw [hb] at this
    exact hbb (Option.some.inj this).symm

/-- Lookup on a map that satisfies the invariant, for a key whose bucket index is in
range: the payload of the node that carries the key, wherever it is, and `0` when no node
carries it. -/
theorem w_map_get_spec (cs : Bool) (m : w_map_t) (key : w_key) (b : Fin W_NUM_MAP_SLOTS)
    (hok : w_map_ok cs m) (hb : w_key_slot cs m key = some b) :
    (∀ b' it, it ∈ m.slots b' → w_slot_id it = w_key_id m key →
      w_map_get cs m key = some it.data) ∧
    ((∀ b' it, it ∈ m.slots b' → w_slot_id it ≠ w_key_id m key) →
      w_map_get cs m key = some 0) := by
  rw [w_map_get_eq, hb]
  simp only [Option.map_some', Option.some.injEq]
  constructor
  · intro b' it hit hid
    have hpl := (hok b').2 _ (List.mem_map_of_mem _ hit)
    rw [hid] at hpl
    simp only [w_key_id] at hpl
    rw [w_map_hash_take] at hpl
    have : w_key_slot cs m key = some b' := hpl
    rw [hb] at this
    cases this
    exact w_slot_get_of_mem _ _ _ (hok b).1 it hit (w_slot_match_of_id _ _ _ hid)
  · intro habs
    apply w_slot_get_no_match
    intro it hit
    by_contra hm
    have hm' : w_slot_match (w_map_key m key).1 (w_map_key m key).2 it = true := by
      simpa using hm
    exact habs b it hit
      (w_slot_id_of_match _ _ it ((hok b).1.2 _ (List.mem_map_of_mem _ hit)) hm')

/-- On the map returned by `w_map_new` the entry count is `0` and `w_map_get` returns `0`
for every key whose bucket index is in range. -/
theorem w_map_get_new (cs : Bool) (key_is_ptr : Int) (key : w_key)
    (b : Fin W_NUM_MAP_SLOTS) (hb : w_key_slot cs (w_map_new key_is_ptr) key = some b) :
    w_map_get cs (w_map_new key_is_ptr) key = some 0 ∧ (w_map_new key_is_ptr).len = 0 := by
  rw [w_map_get_eq, hb]
  exact ⟨rfl, rfl⟩

/-! ## The hash -/

theorem int_xor_byte (x : Int) (b : Nat) (hx : 0 ≤ x ∧ x < 256) (hb : b < 256) :
    0 ≤ int_xor x (b : Int) ∧ int_xor x (b : Int) < 256 := by
  obtain ⟨x0, x1⟩ := hx
  obtain ⟨n, rfl⟩ := Int.eq_ofNat_of_zero_le x0
  have hn : n < 256 := by omega
  have e1 : ((n : Int) % 2 ^ 32).toNat = n := by
    rw [Int.emod_eq_of_lt (by omega) (by omega)]; rfl
  have e2 : ((b : Int) % 2 ^ 32).toNat = b := by
    rw [Int.emod_eq_of_lt (by omega) (by omega)]; rfl
  have hlt : n ^^^ b < 2 ^ 8 := Nat.xor_lt_two_pow (by omega) (by omega)
  unfold int_xor int_of_bits
  rw [e1, e2]
  have e3 : (n ^^^ b) % 2 ^ 32 = n ^^^ b := Nat.mod_eq_of_lt (by omega)
  rw [e3, if_pos (by omega)]
  constructor <;> omega

theorem w_map_hash_fold_range (cs : Bool) (l : List Nat)
    (hl : ∀ b ∈ l, b < 256 ∧ (cs = true → b < 128)) (x : Int) (hx : 0 ≤ x ∧ x < 256) :
    0 ≤ l.foldl (fun x b => int_xor x (char_to_int cs b)) x ∧
      l.foldl (fun x b => int_xor x (char_to_int cs b)) x < 256 := by
  induction l generalizing x with
  | nil => exact hx
  | cons b bs ih =>
    rw [List.foldl_cons]
    apply ih (fun c hc => hl c (List.mem_cons_of_mem _ hc))
    obtain ⟨h1, h2⟩ := hl b (List.mem_cons_self _ _)
    have : char_to_int cs b = (b : Int) := by
      unfold char_to_int
      rw [if_neg]
      rintro ⟨hcs, hb⟩
      have := h2 hcs
      omega
    rw [this]
    exact int_xor_byte x b hx h1

/-- Where plain `char` is unsigned, and for keys without a byte above `0x7F` anywhere,
`w_map_hash` returns an index of the bucket array. -/
theorem w_map_hash_range (cs : Bool) (ptr : List Nat) (len : Nat)
    (hl : ∀ b ∈ ptr, b < 256 ∧ (cs = true → b < 128)) :
    0 ≤ w_map_hash cs ptr len ∧ w_map_hash cs ptr len < 64 := by
  obtain ⟨h0, -⟩ := w_map_hash_fold_range cs (ptr.take len)
    (fun b hb => hl b (List.mem_of_mem_take hb)) 0 ⟨le_refl _, by norm_num⟩
  unfold w_map_hash
  exact ⟨Int.tmod_nonneg _ h0, Int.tmod_lt_of_pos _ (by norm_num)⟩

/-! ## The claims that fail on the code, evaluated at a failing input -/

/-- C2. The array of ints `[10, 20, 30]` built by `w_arr_new_ints` has `len = cap = 3`, and
`i = 1`, `n = 1` satisfy `i + n ≤ len`; yet `w_arr_remove` moves `len - i + n = 3` slots
from slot 2, two slots past the end of the buffer, instead of the `len - i - n = 1` slot
that follows the removed range. -/
theorem w_arr_remove_full_array :
    w_arr_ok (w_arr_new_ints [10, 20, 30]) ∧ 1 + 1 ≤ (w_arr_new_ints [10, 20, 30]).len ∧
    memmove (w_arr_new_ints [10, 20, 30]).data (1 * 4) ((1 + 1) * 4) ((3 - 1 + 1) * 4) = none ∧
    w_arr_remove (w_arr_new_ints [10, 20, 30]) 1 1 = none := by
  decide

/-- C3. On the array of 4-byte ints `[10, 20, 30]`, `w_arr_slice(arr, 1, 1)` copies the four
bytes at byte offset 1, so its one element is `00 00 00 14` (hexadecimal) and not the
element at index 1, which is `14 00 00 00`, the int 20. -/
theorem w_arr_slice_wide_elements :
    (w_arr_slice (w_arr_new_ints [10, 20, 30]) 1 1).map w_arr_elems = some [[0, 0, 0, 20]] ∧
    ((w_arr_elems (w_arr_new_ints [10, 20, 30])).drop 1).take 1 = [le_bytes 4 20] ∧
    le_bytes 4 20 = [20, 0, 0, 0] := by
  decide

/-- C4. Where plain `char` is signed, the hash of the 8 bytes of the scalar key 129 (first
byte `0x81`) is `-63`, which is not an index of the 64-entry bucket array, and
`w_map_set` with that key leaves the array. -/
theorem w_map_hash_high_bit :
    w_map_hash true (le_bytes 8 129) 8 = -63 ∧ w_map_slot (-63) = none ∧
    (w_map_set true (w_map_new 0) ⟨129, []⟩ 1).isNone = true := by
  decide

/-- C5. On a fresh scalar-keyed map, after `w_map_set(map, 42, 100)` the entry count is 1;
after `w_map_remove(map, 42)` the key is gone (`w_map_get` returns 0) and the entry count
is still 1. -/
theorem w_map_remove_keeps_len :
    (w_map_set true (w_map_new 0) ⟨42, []⟩ 100).map (fun m => m.len) = some 1 ∧
    ((w_map_set true (w_map_new 0) ⟨42, []⟩ 100).bind fun m =>
      (w_map_remove true m ⟨42, []⟩).bind fun m1 => w_map_get true m1 ⟨42, []⟩) = some 0 ∧
    ((w_map_set true (w_map_new 0) ⟨42, []⟩ 100).bind fun m =>
      (w_map_remove true m ⟨42, []⟩).map fun m1 => m1.len) = some 1 := by
  decide

/-- C6. Where plain `char` is signed, `w_map_remove(map, 129)` on a map that holds the key
42 indexes bucket `-63`: the call, and with it the `w_map_get` that follows, is an access
outside the bucket array and does not return 0. -/
theorem w_map_remove_get_high_bit :
    ((w_map_set true (w_map_new 0) ⟨42, []⟩ 100).bind fun m =>
      (w_map_remove true m ⟨129, []⟩).bind fun m1 => w_map_get true m1 ⟨129, []⟩) = none := by
  decide

/-- C7. Where plain `char` is signed, `w_map_set(map, 129, 1)` followed by
`w_map_set(map, 7, 2)` on a fresh scalar-keyed map does not make `w_map_get(map, 129)`
return 1: the first call already indexes bucket `-63`. -/
theorem w_map_set_set_get_high_bit :
    ((w_map_set true (w_map_new 0) ⟨129, []⟩ 1).bind fun m =>
      (w_map_set true m ⟨7, []⟩ 2).bind fun m1 => w_map_get true m1 ⟨129, []⟩) = none := by
  decide

/-- C8. The scenario of the claim holds: `set(42,100)`, `set(7,200)`, `set(42,150)` on a
fresh scalar-keyed map gives `get(42) = 150`, `get(7) = 200` and entry count 2.  Where
plain `char` is signed, setting the key 129 twice does not: both calls index bucket
`-63`. -/
theorem w_map_overwrite_high_bit :
    ((w_map_set true (w_map_new 0) ⟨42, []⟩ 100).bind fun m =>
      (w_map_set true m ⟨7, []⟩ 200).bind fun m1 =>
        (w_map_set true m1 ⟨42, []⟩ 150).bind fun m2 =>
          (w_map_get true m2 ⟨42, []⟩).bind fun a =>
            (w_map_get true m2 ⟨7, []⟩).map fun b => (a, b, m2.len)) = some (150, 200, 2) ∧
    ((w_map_set true (w_map_new 0) ⟨129, []⟩ 1).bind fun m =>
      (w_map_set true m ⟨129, []⟩ 2).bind fun m1 => w_map_get true m1 ⟨129, []⟩) = none := by
  decide

/-- C9. Where plain `char` is signed, `w_map_get(map, 129)` on the map returned by
`w_map_new(0)` indexes bucket `-63` and does not return 0; the entry count of that map
is 0. -/
theorem w_map_get_new_high_bit :
    w_map_get true (w_map_new 0) ⟨129, []⟩ = none ∧ (w_map_new 0).len = 0 := by
  decide

/-- C10. Where plain `char` is signed, `w_map_remove(map, 129)` of the absent key 129 from
a map that holds the key 7 indexes bucket `-63`: the call is an access outside the
bucket array and not a no-op. -/
theorem w_map_remove_absent_high_bit :
    ((w_map_set true (w_map_new 0) ⟨7, []⟩ 200).bind fun m =>
      (w_map_remove true m ⟨129, []⟩).map fun m1 => m1.len) = none := by
  decide


/-! ## Capacity -/

theorem w_arr_insert_impl_cap (arr a : w_arr_t) (i : Nat)
    (h : w_arr_insert_impl arr i = some a) :
    a.cap = (w_arr_grow arr).cap ∧ a.elem_size = arr.elem_size ∧ a.len = arr.len + 1 := by
  have hes : (w_arr_grow arr).elem_size = arr.elem_size := by
    unfold w_arr_grow; split <;> rfl
  have hlen : (w_arr_grow arr).len = arr.len := by
    unfold w_arr_grow; split <;> rfl
  rw [w_arr_insert_impl_eq] at h
  split at h
  · cases hm : memmove (w_arr_grow arr).data ((i + 1) * (w_arr_grow arr).elem_size)
        (i * (w_arr_grow arr).elem_size)
        (((w_arr_grow arr).len - i) * (w_arr_grow arr).elem_size) with
    | none => rw [hm] at h; cases h
    | some d =>
      rw [hm] at h
      cases h
      exact ⟨rfl, hes, by show (w_arr_grow arr).len + 1 = _; rw [hlen]⟩
  · cases h
    exact ⟨rfl, hes, by show (w_arr_grow arr).len + 1 = _; rw [hlen]⟩

theorem w_arr_grow_cap (arr : w_arr_t) :
    (arr.len ≥ arr.cap → (w_arr_grow arr).cap = arr.cap + max 4 (arr.cap / 2)) ∧
    (arr.len < arr.cap → (w_arr_grow arr).cap = arr.cap) := by
  unfold w_arr_grow
  constructor
  · intro h
    rw [if_pos h]
    show arr.cap + W_MAX 4 (arr.cap / 2) = _
    unfold W_MAX
    split <;> omega
  · intro h
    rw [if_neg (by omega)]

/-- C11. On a well-formed handle and for `i ≤ len`, `w_arr_insert_impl` returns a handle
whose capacity differs from the old one exactly when `len ≥ cap` held on entry; in that
case the new capacity is `cap + max(4, cap / 2)` with floor division, and when
`len < cap` the capacity is unchanged.  The handle made by `w_arr_new_impl` has length 0
and capacity 16. -/
theorem w_arr_insert_impl_capacity (arr : w_arr_t) (i : Nat) (hok : w_arr_ok arr)
    (hi : i ≤ arr.len) :
    (∃ a, w_arr_insert_impl arr i = some a ∧
      (a.cap ≠ arr.cap ↔ arr.len ≥ arr.cap) ∧
      (arr.len ≥ arr.cap → a.cap = arr.cap + max 4 (arr.cap / 2)) ∧
      (arr.len < arr.cap → a.cap = arr.cap)) ∧
    ∀ elem_size, (w_arr_new_impl elem_size).len = 0 ∧ (w_arr_new_impl elem_size).cap = 16 := by
  refine ⟨?_, fun _ => ⟨rfl, rfl⟩⟩
  obtain ⟨a, ha, -⟩ := w_arr_insert_impl_spec arr i hok hi
  obtain ⟨hcap, -, -⟩ := w_arr_insert_impl_cap arr a i ha
  obtain ⟨hge, hlt⟩ := w_arr_grow_cap arr
  refine ⟨a, ha, ?_, fun h => hcap.trans (hge h), fun h => hcap.trans (hlt h)⟩
  constructor
  · intro hne
    by_contra hc
    exact hne (hcap.trans (hlt (by omega)))
  · intro h
    have := hge h
    omega

/-- Witness for C11: a full array of two ints (`len = cap = 2`) grows to capacity
`2 + max(4, 1) = 6` on insertion at index 1. -/
theorem w_arr_insert_impl_capacity_witness :
    (∃ a, w_arr_insert_impl (w_arr_new_ints [10, 30]) 1 = some a ∧
      (a.cap ≠ (w_arr_new_ints [10, 30]).cap ↔
        (w_arr_new_ints [10, 30]).len ≥ (w_arr_new_ints [10, 30]).cap) ∧
      ((w_arr_new_ints [10, 30]).len ≥ (w_arr_new_ints [10, 30]).cap →
        a.cap = (w_arr_new_ints [10, 30]).cap + max 4 ((w_arr_new_ints [10, 30]).cap / 2)) ∧
      ((w_arr_new_ints [10, 30]).len < (w_arr_new_ints [10, 30]).cap →
        a.cap = (w_arr_new_ints [10, 30]).cap)) ∧
    ∀ elem_size, (w_arr_new_impl elem_size).len = 0 ∧ (w_arr_new_impl elem_size).cap = 16 :=
  w_arr_insert_impl_capacity (w_arr_new_ints [10, 30]) 1 (by decide) (by decide)

/-! ## The invariant `len ≤ cap` -/

theorem w_arr_ok_new_impl (elem_size : Nat) : w_arr_ok (w_arr_new_impl elem_size) := by
  unfold w_arr_ok w_arr_new_impl malloc
  simp

theorem w_arr_slice_fields (arr b : w_arr_t) (i n : Nat) (h : w_arr_slice arr i n = some b) :
    b.len = n ∧ b.cap = n ∧ b.elem_size = arr.elem_size ∧ w_arr_ok b := by
  unfold w_arr_slice at h
  dsimp only at h
  cases hm : memcpy (malloc (n * arr.elem_size)) 0 arr.data i (n * arr.elem_size) with
  | none => rw [hm] at h; cases h
  | some d =>
    rw [hm] at h
    cases h
    refine ⟨rfl, rfl, rfl, ?_, Nat.le_refl _⟩
    unfold memcpy at hm
    split at hm
    · show d.length = n * arr.elem_size
      rw [length_writeBytes hm]
      simp [malloc]
    · cases hm

theorem w_arr_slice_defined (arr : w_arr_t) (i n : Nat) (hok : w_arr_ok arr)
    (hin : i + n ≤ arr.len) (hes : 1 ≤ arr.elem_size) :
    ∃ b, w_arr_slice arr i n = some b := by
  obtain ⟨hdat, hcap⟩ := hok
  have h1 : i ≤ i * arr.elem_size := Nat.le_mul_of_pos_right i hes
  have h2 : i * arr.elem_size + n * arr.elem_size = (i + n) * arr.elem_size :=
    (Nat.add_mul _ _ _).symm
  have h3 : (i + n) * arr.elem_size ≤ arr.cap * arr.elem_size :=
    slot_le' arr.elem_size (by omega)
  have hsrc : i + n * arr.elem_size ≤ arr.data.length := by omega
  unfold w_arr_slice memcpy
  dsimp only
  rw [if_pos hsrc]
  unfold writeBytes
  rw [if_pos (by rw [length_readBytes _ _ _ hsrc]; simp [malloc])]
  exact ⟨_, rfl⟩

theorem w_arr_remove_fields (arr a : w_arr_t) (i n : Nat) (h : w_arr_remove arr i n = some a) :
    a.len = arr.len - n ∧ a.cap = arr.cap ∧ a.elem_size = arr.elem_size ∧
    a.data.length = arr.data.length := by
  unfold w_arr_remove at h
  cases hm : memmove arr.data (i * arr.elem_size) ((i + n) * arr.elem_size)
      ((arr.len - i + n) * arr.elem_size) with
  | none => rw [hm] at h; cases h
  | some d =>
    rw [hm] at h
    cases h
    refine ⟨rfl, rfl, rfl, ?_⟩
    unfold memmove at hm
    split at hm
    · exact length_writeBytes hm
    · cases hm

/-- Where the calls are defined, `len ≤ cap` (with a buffer of `cap` slots) is kept: it
holds for the handle made by `w_arr_new_impl`; `w_arr_slice` is defined for
`i + n ≤ len` and every handle it returns satisfies it; `w_arr_insert_impl` with
`i ≤ len` is defined and keeps it, also when the capacity on entry is 0; and every handle
returned by `w_arr_remove` keeps it, the call being defined at least when
`len + 2 * n ≤ cap`. -/
theorem w_arr_len_le_cap (arr : w_arr_t) (i n : Nat) (hok : w_arr_ok arr) :
    (∀ elem_size, w_arr_ok (w_arr_new_impl elem_size)) ∧
    (i + n ≤ arr.len → 1 ≤ arr.elem_size →
      ∃ b, w_arr_slice arr i n = some b ∧ w_arr_ok b ∧ b.len ≤ b.cap) ∧
    (i ≤ arr.len →
      ∃ a, w_arr_insert_impl arr i = some a ∧ w_arr_ok a ∧ a.len ≤ a.cap) ∧
    (i + n ≤ arr.len →
      (∀ a, w_arr_remove arr i n = some a → w_arr_ok a ∧ a.len ≤ a.cap) ∧
      (arr.len + 2 * n ≤ arr.cap → ∃ a, w_arr_remove arr i n = some a)) := by
  refine ⟨w_arr_ok_new_impl, ?_, ?_, ?_⟩
  · intro hin hes
    obtain ⟨b, hb⟩ := w_arr_slice_defined arr i n hok hin hes
    have := (w_arr_slice_fields arr b i n hb).2.2.2
    exact ⟨b, hb, this, this.2⟩
  · intro hi
    obtain ⟨a, ha, -, -, hoka, -⟩ := w_arr_insert_impl_spec arr i hok hi
    exact ⟨a, ha, hoka, hoka.2⟩
  · intro hin
    constructor
    · intro a ha
      obtain ⟨h1, h2, h3, h4⟩ := w_arr_remove_fields arr a i n ha
      have hoka : w_arr_ok a := by
        constructor
        · rw [h4, h2, h3]; exact hok.1
        · rw [h1, h2]; have := hok.2; omega
      exact ⟨hoka, hoka.2⟩
    · intro hroom
      obtain ⟨a, ha, -⟩ := w_arr_remove_in_bounds arr i n hok hin hroom
      exact ⟨a, ha⟩

/-- C12. The invariant is not kept by `w_arr_remove` on a full handle.  The handle that
`w_arr_slice` returns for the first two of the ints `[10, 20, 30]` is well formed with
`len = cap = 2`, and `i = 0`, `n = 1` satisfy `i + n ≤ len`; yet `w_arr_remove` moves
`len - i + n = 3` slots from slot 1 of the two-slot buffer, writing past its end, so the
call yields no handle with `len ≤ cap` over a buffer of `cap` slots.  An insertion into a
handle of capacity 0 does keep the invariant: the capacity becomes 4. -/
theorem w_arr_remove_breaks_len_le_cap :
    (w_arr_slice (w_arr_new_ints [10, 20, 30]) 0 2).map
        (fun b => (b.len, b.cap, b.data.length, decide (w_arr_ok b)))
      = some (2, 2, 8, true) ∧
    0 + 1 ≤ 2 ∧
    ((w_arr_slice (w_arr_new_ints [10, 20, 30]) 0 2).bind fun b =>
        memmove b.data (0 * 4) ((0 + 1) * 4) ((2 - 0 + 1) * 4)) = none ∧
    ((w_arr_slice (w_arr_new_ints [10, 20, 30]) 0 2).bind fun b => w_arr_remove b 0 1) = none ∧
    (w_arr_insert_impl (w_arr_new_ints []) 0).map (fun a => (a.len, a.cap)) = some (1, 4) := by
  decide

/-! ## Sequences of insertions and removals -/

/-- C14. On the array of ints `[1, 2]` (`len = cap = 2`, buffer of 8 bytes) and `i = 0`,
`n = 2`, no element follows the removed range (`len - i - n = 0`), yet `w_arr_remove`
asks `memmove` for `(len - i + n) * elem_size = 16` bytes from byte offset 8: every byte
of that block is read, and half of it written, outside the 8-byte buffer. -/
theorem w_arr_remove_block_move :
    w_arr_ok (w_arr_new_ints [1, 2]) ∧ 0 + 2 ≤ (w_arr_new_ints [1, 2]).len ∧
    (w_arr_new_ints [1, 2]).len - 0 - 2 = 0 ∧
    ((w_arr_new_ints [1, 2]).len - 0 + 2) * (w_arr_new_ints [1, 2]).elem_size = 16 ∧
    (w_arr_new_ints [1, 2]).data.length = 8 ∧
    memmove (w_arr_new_ints [1, 2]).data (0 * 4) ((0 + 2) * 4) 16 = none ∧
    w_arr_remove (w_arr_new_ints [1, 2]) 0 2 = none := by
  decide

/-- C13. The scenario of the claim holds: inserting 10, 20, 30 at 0, 1, 2 into a fresh
array of 4-byte elements and then `remove(1, 1)` reads `[10, 30]` with length 2.  But
after sixteen insertions have filled a fresh array (`len = cap = 16`), `remove(15, 1)`,
whose precondition holds, is an out-of-bounds block move, where the list model has 15
elements left. -/
theorem w_arr_run_full_remove :
    (w_arr_run (w_arr_new_impl 4)
        [.insert 0 (le_bytes 4 10), .insert 1 (le_bytes 4 20), .insert 2 (le_bytes 4 30),
         .remove 1 1]).map (fun a => (w_arr_elems a, a.len))
      = some ([le_bytes 4 10, le_bytes 4 30], 2) ∧
    (w_arr_run (w_arr_new_impl 1) w_arr_fill16).map (fun a => (a.len, a.cap))
      = some (16, 16) ∧
    w_arr_ops_pre 1 [] (w_arr_fill16 ++ [.remove 15 1]) ∧
    w_arr_run (w_arr_new_impl 1) (w_arr_fill16 ++ [.remove 15 1]) = none ∧
    (list_run [] (w_arr_fill16 ++ [.remove 15 1])).length = 15 ∧
    w_arr_net_len (w_arr_fill16 ++ [.remove 15 1]) = 15 := by
  decide

theorem w_arr_insert_ok (arr : w_arr_t) (i : Nat) (x : List Nat) (hok : w_arr_ok arr)
    (hi : i ≤ arr.len) (a : w_arr_t) (h : w_arr_insert arr i x = some a) :
    w_arr_ok a ∧ a.cap = (w_arr_grow arr).cap ∧ a.len = arr.len + 1 ∧
      a.elem_size = arr.elem_size := by
  obtain ⟨b, hb, hblen, hbes, ⟨hbdat, hbcap⟩, -, -⟩ := w_arr_insert_impl_spec arr i hok hi
  obtain ⟨hcap, -, -⟩ := w_arr_insert_impl_cap arr b i hb
  unfold w_arr_insert w_arr_set at h
  rw [hb, Option.some_bind] at h
  cases hw : writeBytes b.data (i * x.length) x with
  | none => rw [hw] at h; cases h
  | some d =>
    rw [hw] at h
    cases h
    refine ⟨⟨?_, hbcap⟩, hcap, hblen, hbes⟩
    show d.length = b.cap * b.elem_size
    rw [length_writeBytes hw, hbdat]

theorem w_arr_remove_room (arr a : w_arr_t) (i n : Nat) (hok : w_arr_ok arr)
    (hes : 1 ≤ arr.elem_size) (h : w_arr_remove arr i n = some a) :
    arr.len + 2 * n ≤ arr.cap := by
  unfold w_arr_remove at h
  cases hm : memmove arr.data (i * arr.elem_size) ((i + n) * arr.elem_size)
      ((arr.len - i + n) * arr.elem_size) with
  | none => rw [hm] at h; cases h
  | some d =>
    unfold memmove at hm
    split at hm
    · rename_i hsrc
      rw [hok.1, ← Nat.add_mul] at hsrc
      have := Nat.le_of_mul_le_mul_right hsrc (by omega)
      omega
    · cases hm

theorem list_run_length (es : Nat) (l : List (List Nat)) (ops : List w_arr_op)
    (hpre : w_arr_ops_pre es l ops) :
    ((list_run l ops).length : Int) = l.length + w_arr_net_len ops := by
  induction ops generalizing l with
  | nil => simp [list_run, w_arr_net_len]
  | cons op ops ih =>
    obtain ⟨h1, h2⟩ := hpre
    rw [list_run, ih _ h2]
    cases op with
    | insert i x =>
      have hi : i ≤ l.length := h1.1
      simp only [list_step, w_arr_net_len, List.length_append, List.length_take,
        List.length_cons, List.length_drop]
      omega
    | remove i n =>
      have hi : i + n ≤ l.length := h1
      simp only [list_step, w_arr_net_len, List.length_append, List.length_take,
        List.length_drop]
      omega

/-- Refinement of the list model by every run that stays inside the buffer: if each
operation satisfies its precondition and the whole sequence of calls is defined, the
elements read back are those of the list model and the length is the initial length
plus insertions minus removed counts. -/
theorem w_arr_run_refines (arr : w_arr_t) (ops : List w_arr_op) (hok : w_arr_ok arr)
    (hes : 1 ≤ arr.elem_size)
    (hpre : w_arr_ops_pre arr.elem_size (w_arr_elems arr) ops) (b : w_arr_t)
    (h : w_arr_run arr ops = some b) :
    w_arr_elems b = list_run (w_arr_elems arr) ops ∧
    (b.len : Int) = arr.len + w_arr_net_len ops := by
  have key : w_arr_elems b = list_run (w_arr_elems arr) ops := by
    induction ops generalizing arr with
    | nil =>
      cases h
      rfl
    | cons op ops ih =>
      obtain ⟨h1, h2⟩ := hpre
      rw [length_w_arr_elems] at h1
      rw [w_arr_run] at h
      cases hs : w_arr_step arr op with
      | none => rw [hs] at h; cases h
      | some a =>
        rw [hs, Option.some_bind] at h
        have hstep : w_arr_ok a ∧ a.elem_size = arr.elem_size ∧
            w_arr_elems a = list_step (w_arr_elems arr) op := by
          cases op with
          | insert i x =>
            obtain ⟨a', ha', -, -, hel, -⟩ := w_arr_insert_contents arr i x hok h1.1 h1.2
            have : a' = a := Option.some.inj (ha'.symm.trans hs)
            subst this
            obtain ⟨hoka, -, -, hesa⟩ := w_arr_insert_ok arr i x hok h1.1 a' ha'
            exact ⟨hoka, hesa, hel⟩
          | remove i n =>
            have hroom := w_arr_remove_room arr a i n hok hes hs
            obtain ⟨a', ha', -, hesa, -, hoka, hel⟩ :=
              w_arr_remove_in_bounds arr i n hok h1 hroom
            have : a' = a := Option.some.inj (ha'.symm.trans hs)
            subst this
            exact ⟨hoka, hesa, hel⟩
        obtain ⟨hoka, hesa, hel⟩ := hstep
        rw [list_run, ← hel]
        exact ih a hoka (by rw [hesa]; exact hes) (by rw [hesa, hel]; exact h2) h
  refine ⟨key, ?_⟩
  have := list_run_length arr.elem_size (w_arr_elems arr) ops hpre
  rw [← key, length_w_arr_elems, length_w_arr_elems] at this
  exact this


/-! ## Number of reallocations -/

theorem w_arr_grow_three_halves (arr : w_arr_t) (h16 : 16 ≤ arr.cap)
    (hfull : arr.len ≥ arr.cap) : (w_arr_grow arr).cap = 3 * arr.cap / 2 := by
  rw [(w_arr_grow_cap arr).1 hfull]
  omega

theorem w_arr_grow_square (c : Nat) (h16 : 16 ≤ c) :
    2 * c ^ 2 ≤ (c + max 4 (c / 2)) ^ 2 := by
  have hm : max 4 (c / 2) = c / 2 := by omega
  rw [hm]
  have h1 : c ≤ 2 * (c / 2) + 1 := by omega
  have h2 : 8 ≤ c / 2 := by omega
  generalize c / 2 = h at h1 h2
  nlinarith

theorem w_arr_realloc_count_inv (ins : List (Nat × List Nat)) (arr : w_arr_t) (k0 : Nat)
    (hok : w_arr_ok arr) (h16 : 16 ≤ arr.cap) (hJ : 2 ^ k0 * 128 ≤ arr.cap ^ 2)
    (hK : k0 = 0 ∨ 2 ^ (k0 + 6) < arr.len ^ 2)
    (hpre : w_arr_ins_pre arr.elem_size arr.len ins) :
    ∃ k, w_arr_realloc_count arr ins = some k ∧
      (k0 + k = 0 ∨ 2 ^ (k0 + k + 6) < (arr.len + ins.length) ^ 2) := by
  induction ins generalizing arr k0 with
  | nil => exact ⟨0, rfl, hK⟩
  | cons p ins ih =>
    obtain ⟨i, x⟩ := p
    obtain ⟨hi, hx, hrest⟩ := hpre
    obtain ⟨a, ha, -⟩ := w_arr_insert_contents arr i x hok hi hx
    obtain ⟨hoka, hcap, hlen, hes⟩ := w_arr_insert_ok arr i x hok hi a ha
    obtain ⟨hge, hlt⟩ := w_arr_grow_cap arr
    have hlc := hok.2
    have hsq : arr.len ^ 2 < (arr.len + 1) ^ 2 := by nlinarith
    rw [← hes, ← hlen] at hrest
    by_cases hfull : arr.len ≥ arr.cap
    · have hc : a.cap = arr.cap + max 4 (arr.cap / 2) := hcap.trans (hge hfull)
      have hle : arr.len = arr.cap := by omega
      have hne : a.cap ≠ arr.cap := by omega
      have hJ' : 2 ^ (k0 + 1) * 128 ≤ a.cap ^ 2 := by
        have := w_arr_grow_square arr.cap h16
        rw [hc, pow_succ]
        omega
      have hK' : k0 + 1 = 0 ∨ 2 ^ (k0 + 1 + 6) < a.len ^ 2 := by
        right
        rw [hlen, hle]
        rw [hle] at hsq
        have e : 2 ^ (k0 + 1 + 6) = 2 ^ k0 * 128 := by
          rw [Nat.add_assoc, pow_add]; rfl
        rw [e]
        omega
      obtain ⟨k, hk, hres⟩ := ih a (k0 + 1) hoka (by omega) hJ' hK' hrest
      refine ⟨1 + k, ?_, ?_⟩
      · rw [w_arr_realloc_count, ha, Option.some_bind, hk, Option.map_some', if_pos hne]
      · have e1 : k0 + (1 + k) = k0 + 1 + k := by omega
        have e2 : arr.len + (ins.length + 1) = a.len + ins.length := by omega
        rw [List.length_cons, e1, e2]
        exact hres
    · have hc : a.cap = arr.cap := hcap.trans (hlt (by omega))
      have hK' : k0 = 0 ∨ 2 ^ (k0 + 6) < a.len ^ 2 := by
        rcases hK with h | h
        · exact Or.inl h
        · right
          rw [hlen]
          omega
      obtain ⟨k, hk, hres⟩ := ih a k0 hoka (by omega) (by rw [hc]; exact hJ) hK' hrest
      refine ⟨0 + k, ?_, ?_⟩
      · rw [w_arr_realloc_count, ha, Option.some_bind, hk, Option.map_some',
          if_neg (by rw [hc]; exact fun h => h rfl)]
      · have e2 : arr.len + (ins.length + 1) = a.len + ins.length := by omega
        rw [List.length_cons, Nat.zero_add, e2]
        exact hres

/-- C18. Starting from the array made by `w_arr_new_impl` (capacity 16), any `n`
insertions made one after the other, each at an index `i ≤ len`, are all defined, and the
number of them that change the capacity is at most `2 * Nat.log 2 n`, twice the floor of
the binary logarithm of `n` (hence at most twice the real logarithm). -/
theorem w_arr_realloc_count_log (elem_size : Nat) (ins : List (Nat × List Nat))
    (hpre : w_arr_ins_pre elem_size 0 ins) :
    ∃ k, w_arr_realloc_count (w_arr_new_impl elem_size) ins = some k ∧
      k ≤ 2 * Nat.log 2 ins.length := by
  obtain ⟨k, hk, hres⟩ := w_arr_realloc_count_inv ins (w_arr_new_impl elem_size) 0
    (w_arr_ok_new_impl elem_size) (Nat.le_refl 16)
    (show 2 ^ 0 * 128 ≤ 16 ^ 2 by decide) (Or.inl rfl) hpre
  refine ⟨k, hk, ?_⟩
  rcases hres with h | h
  · omega
  · have hn : (w_arr_new_impl elem_size).len + ins.length = ins.length := Nat.zero_add _
    rw [hn, Nat.zero_add] at h
    have hlog : ins.length < 2 ^ (Nat.log 2 ins.length + 1) :=
      Nat.lt_pow_succ_log_self (by decide) _
    have hsq : ins.length ^ 2 < (2 ^ (Nat.log 2 ins.length + 1)) ^ 2 :=
      Nat.pow_lt_pow_left hlog (by decide)
    rw [← pow_mul] at hsq
    have := (Nat.pow_lt_pow_iff_right (by decide : 1 < 2)).mp (h.trans hsq)
    omega

/-- Witness for C18: seventeen one-byte values appended to a fresh array; the
seventeenth insertion is the only one that grows it. -/
theorem w_arr_realloc_count_log_witness :
    w_arr_ins_pre 1 0 w_arr_push17 ∧
    ∃ k, w_arr_realloc_count (w_arr_new_impl 1) w_arr_push17 = some k ∧
      k ≤ 2 * Nat.log 2 w_arr_push17.length :=
  ⟨by decide, w_arr_realloc_count_log 1 w_arr_push17 (by decide)⟩

theorem w_arr_realloc_count_push17 :
    w_arr_realloc_count (w_arr_new_impl 1) w_arr_push17 = some 1 := by
  decide


/-! ## The hash against the specification -/

theorem int_xor_byte_eq (n b : Nat) (hn : n < 256) (hb : b < 256) :
    int_xor (n : Int) (b : Int) = ((n ^^^ b : Nat) : Int) ∧ n ^^^ b < 256 := by
  have e1 : ((n : Int) % 2 ^ 32).toNat = n := by
    rw [Int.emod_eq_of_lt (by omega) (by omega)]; rfl
  have e2 : ((b : Int) % 2 ^ 32).toNat = b := by
    rw [Int.emod_eq_of_lt (by omega) (by omega)]; rfl
  have hlt : n ^^^ b < 2 ^ 8 := Nat.xor_lt_two_pow (by omega) (by omega)
  unfold int_xor int_of_bits
  rw [e1, e2]
  have e3 : (n ^^^ b) % 2 ^ 32 = n ^^^ b := Nat.mod_eq_of_lt (by omega)
  rw [e3, if_pos (by omega)]
  exact ⟨rfl, hlt⟩

theorem w_map_hash_fold_eq (cs : Bool) (l : List Nat)
    (hl : ∀ b ∈ l, b < 256 ∧ (cs = true → b < 128)) (n : Nat) (hn : n < 256) :
    l.foldl (fun x b => int_xor x (char_to_int cs b)) (n : Int) =
        ((l.foldl (fun x b => x ^^^ b) n : Nat) : Int) ∧
      l.foldl (fun x b => x ^^^ b) n < 256 := by
  induction l generalizing n with
  | nil => exact ⟨rfl, hn⟩
  | cons b bs ih =>
    obtain ⟨h1, h2⟩ := hl b (List.mem_cons_self _ _)
    have hc : char_to_int cs b = (b : Int) := by
      unfold char_to_int
      rw [if_neg]
      rintro ⟨hcs, hb⟩
      have := h2 hcs
      omega
    obtain ⟨e, hlt⟩ := int_xor_byte_eq n b hn h1
    rw [List.foldl_cons, List.foldl_cons, hc, e]
    exact ih (fun c hc => hl c (List.mem_cons_of_mem _ hc)) (n ^^^ b) hlt

/-- Where plain `char` is unsigned, and for keys without a byte above `0x7F`,
`w_map_hash` is the hash of the specification. -/
theorem w_map_hash_eq_spec (cs : Bool) (ptr : List Nat) (len : Nat)
    (hl : ∀ b ∈ ptr, b < 256 ∧ (cs = true → b < 128)) :
    w_map_hash cs ptr len = (xor_hash_spec (ptr.take len) : Int) := by
  obtain ⟨e, -⟩ := w_map_hash_fold_eq cs (ptr.take len)
    (fun b hb => hl b (List.mem_of_mem_take hb)) 0 (by decide)
  unfold w_map_hash xor_hash_spec
  have e' : List.foldl (fun x b => int_xor x (char_to_int cs b)) 0 (List.take len ptr) =
      ((List.foldl (fun x b => x ^^^ b) 0 (List.take len ptr) : Nat) : Int) := e
  rw [e', Int.tmod_eq_emod (Int.ofNat_nonneg _) (by decide)]
  norm_cast

/-- C15. Where plain `char` is signed, the three bytes `E2 82 AC` (the UTF-8 string for
the euro sign) hash to `-52`, while the xor of the bytes taken as `0 .. 255` is `0xCC`
and its residue modulo 64 is 12; the one-byte key `0x81` hashes to `-63`, not 1.  The
empty sequence hashes to 0. -/
theorem w_map_hash_signed_bytes :
    w_map_hash true [0xE2, 0x82, 0xAC] 3 = -52 ∧ xor_hash_spec [0xE2, 0x82, 0xAC] = 12 ∧
    w_map_hash true [0x81] 1 = -63 ∧ xor_hash_spec [0x81] = 1 ∧
    w_map_hash true [] 0 = 0 ∧ xor_hash_spec [] = 0 := by
  decide

/-! ## Invariants of the reachable maps -/

/-- C16. In every map reachable from `w_map_new` by `w_map_set` and `w_map_remove`, no
bucket chain holds two nodes with equal `(keylen, key bytes)`. -/
theorem w_map_keys_unique (cs : Bool) (m : w_map_t) (h : w_map_reachable cs m) :
    ∀ b, (m.slots b).Pairwise fun a c => ¬ (a.keylen = c.keylen ∧ a.key = c.key) := by
  intro b
  have hnd := ((w_map_ok_of_reachable h) b).1.1
  rw [List.Nodup, List.pairwise_map] at hnd
  refine hnd.imp ?_
  intro a c hne hac
  exact hne (Prod.ext hac.1 hac.2)

/-- Witness for C16: the map after `set(42, 100)`, `set(106, 200)`, `set(42, 150)`; the
keys 42 and 106 share bucket 42. -/
theorem w_map_keys_unique_witness :
    ∃ m1 m2 m3, w_map_set true (w_map_new 0) ⟨42, []⟩ 100 = some m1 ∧
      w_map_set true m1 ⟨106, []⟩ 200 = some m2 ∧
      w_map_set true m2 ⟨42, []⟩ 150 = some m3 ∧
      ∀ b, (m3.slots b).Pairwise fun a c => ¬ (a.keylen = c.keylen ∧ a.key = c.key) :=
  ⟨_, _, _, rfl, rfl, rfl,
    w_map_keys_unique true _
      (.set ⟨42, []⟩ 150 (.set ⟨106, []⟩ 200 (.set ⟨42, []⟩ 100 (.new 0) rfl) rfl) rfl)⟩

/-- C19. In every map reachable from `w_map_new` by `w_map_set` and `w_map_remove`, every
node found in bucket `b` has a key that `w_map_hash` sends to `b`; hence, whenever a node
carrying the key of a call exists in any bucket, the hash of that call selects that
bucket and `w_map_get` returns the data of that node. -/
theorem w_map_bucket_placement (cs : Bool) (m : w_map_t) (h : w_map_reachable cs m) :
    (∀ b, ∀ it ∈ m.slots b, w_map_hash cs it.key it.keylen = (b : Nat)) ∧
    ∀ key b, ∀ it ∈ m.slots b, (it.keylen, it.key) = w_key_id m key →
      w_map_hash cs (w_map_key m key).1 (w_map_key m key).2 = (b : Nat) ∧
      w_map_get cs m key = some it.data := by
  have hok := w_map_ok_of_reachable h
  have hslot : ∀ (k : Int) (b : Fin W_NUM_MAP_SLOTS), w_map_slot k = some b → k = (b : Nat) := by
    intro k b hk
    unfold w_map_slot at hk
    split at hk
    · rename_i hr
      cases hk
      exact (Int.toNat_of_nonneg hr.1).symm
    · cases hk
  constructor
  · intro b it hit
    exact hslot _ _ ((hok b).2 _ (List.mem_map_of_mem w_slot_id hit))
  · intro key b it hit hid
    have hpl := (hok b).2 _ (List.mem_map_of_mem w_slot_id hit)
    have hid' : w_slot_id it = w_key_id m key := hid
    rw [hid'] at hpl
    simp only [w_key_id] at hpl
    rw [w_map_hash_take] at hpl
    exact ⟨hslot _ _ hpl, (w_map_get_spec cs m key b hok hpl).1 b it hit hid'⟩

/-- Witness for C19: the map after `set(42, 100)`, `set(106, 200)`, `set(7, 300)`,
`remove(42)`. -/
theorem w_map_bucket_placement_witness :
    ∃ m1 m2 m3 m4, w_map_set true (w_map_new 0) ⟨42, []⟩ 100 = some m1 ∧
      w_map_set true m1 ⟨106, []⟩ 200 = some m2 ∧
      w_map_set true m2 ⟨7, []⟩ 300 = some m3 ∧
      w_map_remove true m3 ⟨42, []⟩ = some m4 ∧
      (∀ b, ∀ it ∈ m4.slots b, w_map_hash true it.key it.keylen = (b : Nat)) ∧
      ∀ key b, ∀ it ∈ m4.slots b, (it.keylen, it.key) = w_key_id m4 key →
        w_map_hash true (w_map_key m4 key).1 (w_map_key m4 key).2 = (b : Nat) ∧
        w_map_get true m4 key = some it.data :=
  ⟨_, _, _, _, rfl, rfl, rfl, rfl,
    w_map_bucket_placement true _
      (.remove ⟨42, []⟩
        (.set ⟨7, []⟩ 300 (.set ⟨106, []⟩ 200 (.set ⟨42, []⟩ 100 (.new 0) rfl) rfl) rfl)
        rfl)⟩


/-! ## Key kinds -/

theorem le_bytes_8_inj (v1 v2 : Int) (h : le_bytes 8 v1 = le_bytes 8 v2) :
    v1 % 2 ^ 64 = v2 % 2 ^ 64 := by
  have p1 : 0 ≤ v1 % 2 ^ 64 := Int.emod_nonneg _ (by norm_num)
  have p2 : 0 ≤ v2 % 2 ^ 64 := Int.emod_nonneg _ (by norm_num)
  have q1 : v1 % 2 ^ 64 < 2 ^ 64 := Int.emod_lt_of_pos _ (by norm_num)
  have q2 : v2 % 2 ^ 64 < 2 ^ 64 := Int.emod_lt_of_pos _ (by norm_num)
  obtain ⟨u1, hu1⟩ := Int.eq_ofNat_of_zero_le p1
  obtain ⟨u2, hu2⟩ := Int.eq_ofNat_of_zero_le p2
  have r1 : u1 < 2 ^ 64 := by rw [hu1] at q1; exact_mod_cast q1
  have r2 : u2 < 2 ^ 64 := by rw [hu2] at q2; exact_mod_cast q2
  unfold le_bytes at h
  simp only [Nat.reduceMul, hu1, hu2, Int.toNat_ofNat] at h
  simp only [List.range, List.range.loop, List.map_cons, List.map_nil, List.cons.injEq,
    and_true] at h
  obtain ⟨h0, h1, h2, h3, h4, h5, h6, h7⟩ := h
  norm_num at h0 h1 h2 h3 h4 h5 h6 h7 r1 r2
  rw [hu1, hu2]
  congr 1
  omega

theorem take_length_takeWhile (p : Nat → Bool) (s : List Nat) :
    s.take (s.takeWhile p).length = s.takeWhile p := by
  induction s with
  | nil => rfl
  | cons a s ih =>
    rw [List.takeWhile_cons]
    split
    · rw [List.length_cons, List.take_succ_cons, ih]
    · rfl

theorem length_le_bytes (w : Nat) (v : Int) : (le_bytes w v).length = w := by
  simp [le_bytes]

theorem w_slot_match_take (kp : List Nat) (kl : Nat) (it : w_slot_t) :
    w_slot_match (kp.take kl) kl it = w_slot_match kp kl it := by
  unfold w_slot_match
  rw [List.take_take, Nat.min_self]

theorem w_slot_get_take (kp : List Nat) (kl : Nat) (c : List w_slot_t) :
    w_slot_get (kp.take kl) kl c = w_slot_get kp kl c := by
  induction c with
  | nil => rfl
  | cons it next ih => rw [w_slot_get, w_slot_get, w_slot_match_take, ih]

theorem w_slot_remove_take (kp : List Nat) (kl : Nat) (c : List w_slot_t) :
    w_slot_remove (kp.take kl) kl c = w_slot_remove kp kl c := by
  induction c with
  | nil => rfl
  | cons it next ih => rw [w_slot_remove, w_slot_remove, w_slot_match_take, ih]

theorem w_slot_set_take (kp : List Nat) (kl : Nat) (d : Int) (c : List w_slot_t) :
    w_slot_set (kp.take kl) kl d c = w_slot_set kp kl d c := by
  induction c with
  | nil => rfl
  | cons it next ih => rw [w_slot_set, w_slot_set, w_slot_match_take, ih]

/-- Each map operation works on the key identity of its call: the `keylen` it computes and
the first `keylen` bytes at `keyptr`. -/
theorem w_map_uses_key_id (cs : Bool) (map : w_map_t) (key : w_key) (d : Int) :
    w_map_uses_key cs map key d (w_key_id map key).2 (w_key_id map key).1 := by
  unfold w_map_uses_key
  show w_map_get cs map key =
      (w_map_slot (w_map_hash cs ((w_map_key map key).1.take (w_map_key map key).2)
        (w_map_key map key).2)).map _ ∧
    w_map_remove cs map key =
      (w_map_slot (w_map_hash cs ((w_map_key map key).1.take (w_map_key map key).2)
        (w_map_key map key).2)).map _ ∧
    w_map_set cs map key d =
      (w_map_slot (w_map_hash cs ((w_map_key map key).1.take (w_map_key map key).2)
        (w_map_key map key).2)).map _
  rw [w_map_hash_take, w_map_get_eq, w_map_remove_eq, w_map_set_eq]
  unfold w_key_slot w_key_id
  refine ⟨?_, ?_, ?_⟩ <;>
    simp only [w_slot_get_take, w_slot_remove_take, w_slot_set_take]

/-- Two calls whose keys have the same identity are the same call. -/
theorem w_map_ops_congr (cs : Bool) (map : w_map_t) (k1 k2 : w_key) (d : Int)
    (h : w_key_id map k1 = w_key_id map k2) :
    w_map_get cs map k1 = w_map_get cs map k2 ∧
    w_map_remove cs map k1 = w_map_remove cs map k2 ∧
    w_map_set cs map k1 d = w_map_set cs map k2 d := by
  obtain ⟨g1, r1, s1⟩ := w_map_uses_key_id cs map k1 d
  obtain ⟨g2, r2, s2⟩ := w_map_uses_key_id cs map k2 d
  rw [h] at g1 r1 s1
  exact ⟨g1.trans g2.symm, r1.trans r2.symm, s1.trans s2.symm⟩

/-- What `w_map_get` of `k2` returns right after `w_map_set` of `k1`: the payload just
set when the two keys have the same identity, and what it returned before otherwise. -/
theorem w_map_set_get_by_id (cs : Bool) (map : w_map_t) (k1 k2 : w_key) (d : Int) :
    (w_key_id map k1 = w_key_id map k2 →
      ((w_map_set cs map k1 d).bind fun m => w_map_get cs m k2)
        = (w_map_set cs map k1 d).map fun _ => d) ∧
    (w_key_id map k1 ≠ w_key_id map k2 →
      ((w_map_set cs map k1 d).bind fun m => w_map_get cs m k2)
        = (w_map_set cs map k1 d).bind fun _ => w_map_get cs map k2) := by
  constructor
  · intro h
    cases hs : w_map_set cs map k1 d with
    | none => rfl
    | some m =>
      have hk := w_map_set_key_is_ptr hs
      have h' : w_key_id m k2 = w_key_id m k1 := by
        rw [w_key_id_congr hk, w_key_id_congr hk, h]
      show w_map_get cs m k2 = some d
      rw [(w_map_ops_congr cs m k2 k1 d h').1]
      exact w_map_get_set_same cs map m k1 d hs
  · intro h
    cases hs : w_map_set cs map k1 d with
    | none => rfl
    | some m => exact w_map_get_set_other cs map m k1 k2 d h hs

/-- C17. Key-kind dispatch.  In a map with `key_is_ptr = 0`, `w_map_get`, `w_map_remove`
and `w_map_set` hash, compare and (for a new node) store exactly the 8 bytes of the
64-bit key value; the node stored for one key matches a call with another key exactly
when the two 64-bit values are equal; calls with equal values are the same call, a get
after a set returns the payload just set when the values are equal and is unaffected by
the set when they differ.  In a map with `key_is_ptr ≠ 0` the same holds with the bytes
before the first zero byte of the string at the address in place of the 8 bytes, and with
equality of those byte strings in place of equality of values, whatever the addresses
are. -/
theorem w_map_key_dispatch (cs : Bool) (map : w_map_t) (k1 k2 : w_key) (d : Int)
    (h1 : -2 ^ 63 ≤ k1.val ∧ k1.val < 2 ^ 63) (h2 : -2 ^ 63 ≤ k2.val ∧ k2.val < 2 ^ 63) :
    (map.key_is_ptr = 0 →
      w_map_uses_key cs map k1 d (le_bytes 8 k1.val) 8 ∧
      (w_slot_match (le_bytes 8 k2.val) 8
          { keylen := 8, key := le_bytes 8 k1.val, data := d } = true ↔ k1.val = k2.val) ∧
      (k1.val = k2.val →
        w_map_get cs map k1 = w_map_get cs map k2 ∧
        w_map_remove cs map k1 = w_map_remove cs map k2 ∧
        w_map_set cs map k1 d = w_map_set cs map k2 d ∧
        ((w_map_set cs map k1 d).bind fun m => w_map_get cs m k2)
          = (w_map_set cs map k1 d).map fun _ => d) ∧
      (k1.val ≠ k2.val →
        ((w_map_set cs map k1 d).bind fun m => w_map_get cs m k2)
          = (w_map_set cs map k1 d).bind fun _ => w_map_get cs map k2)) ∧
    (map.key_is_ptr ≠ 0 →
      w_map_uses_key cs map k1 d (k1.str.takeWhile fun b => b ≠ 0) (strlen k1.str) ∧
      (w_slot_match (k2.str.takeWhile fun b => b ≠ 0) (strlen k2.str)
          { keylen := strlen k1.str, key := k1.str.takeWhile fun b => b ≠ 0, data := d } = true
        ↔ (k1.str.takeWhile fun b => b ≠ 0) = (k2.str.takeWhile fun b => b ≠ 0)) ∧
      ((k1.str.takeWhile fun b => b ≠ 0) = (k2.str.takeWhile fun b => b ≠ 0) →
        w_map_get cs map k1 = w_map_get cs map k2 ∧
        w_map_remove cs map k1 = w_map_remove cs map k2 ∧
        w_map_set cs map k1 d = w_map_set cs map k2 d ∧
        ((w_map_set cs map k1 d).bind fun m => w_map_get cs m k2)
          = (w_map_set cs map k1 d).map fun _ => d) ∧
      ((k1.str.takeWhile fun b => b ≠ 0) ≠ (k2.str.takeWhile fun b => b ≠ 0) →
        ((w_map_set cs map k1 d).bind fun m => w_map_get cs m k2)
          = (w_map_set cs map k1 d).bind fun _ => w_map_get cs map k2)) := by
  have hnode : ∀ (K1 K2 : List Nat),
      (w_slot_match K2 K2.length { keylen := K1.length, key := K1, data := d } = true
        ↔ (K1.length, K1) = (K2.length, K2)) := by
    intro K1 K2
    have e : K2.take K2.length = K2 := List.take_of_length_le (Nat.le_refl _)
    constructor
    · intro hm
      have := w_slot_id_of_match K2 K2.length
        { keylen := K1.length, key := K1, data := d } rfl hm
      rw [e] at this
      exact this
    · intro hid
      exact w_slot_match_of_id K2 K2.length
        { keylen := K1.length, key := K1, data := d } (by rw [e]; exact hid)
  obtain ⟨hsame, hother⟩ := w_map_set_get_by_id cs map k1 k2 d
  constructor
  · intro hz
    have hidk : ∀ k : w_key, w_key_id map k = (8, le_bytes 8 k.val) := by
      intro k
      have hk : w_map_key map k = (le_bytes 8 k.val, 8) := by
        unfold w_map_key
        rw [if_neg (by simpa using hz)]
      unfold w_key_id
      rw [hk]
      show (8, (le_bytes 8 k.val).take 8) = _
      rw [List.take_of_length_le (by rw [length_le_bytes])]
    have hiff : w_key_id map k1 = w_key_id map k2 ↔ k1.val = k2.val := by
      rw [hidk k1, hidk k2]
      constructor
      · intro he
        have := le_bytes_8_inj _ _ (congrArg Prod.snd he)
        omega
      · intro he
        rw [he]
    have huse := w_map_uses_key_id cs map k1 d
    rw [hidk k1] at huse
    refine ⟨huse, ?_, ?_, ?_⟩
    · have := hnode (le_bytes 8 k1.val) (le_bytes 8 k2.val)
      rw [length_le_bytes, length_le_bytes] at this
      rw [this, ← hidk k1, ← hidk k2]
      exact hiff
    · intro he
      obtain ⟨c1, c2, c3⟩ := w_map_ops_congr cs map k1 k2 d (hiff.mpr he)
      exact ⟨c1, c2, c3, hsame (hiff.mpr he)⟩
    · intro hne
      exact hother fun h => hne (hiff.mp h)
  · intro hnz
    have hidk : ∀ k : w_key,
        w_key_id map k = (strlen k.str, k.str.takeWhile fun b => b ≠ 0) := by
      intro k
      have hk : w_map_key map k = (k.str, strlen k.str) := by
        unfold w_map_key
        rw [if_pos hnz]
      unfold w_key_id
      rw [hk]
      show (strlen k.str, k.str.take (strlen k.str)) = _
      unfold strlen
      rw [take_length_takeWhile]
    have hiff : w_key_id map k1 = w_key_id map k2 ↔
        (k1.str.takeWhile fun b => b ≠ 0) = (k2.str.takeWhile fun b => b ≠ 0) := by
      rw [hidk k1, hidk k2]
      constructor
      · intro he
        exact congrArg Prod.snd he
      · intro he
        unfold strlen
        rw [he]
    have huse := w_map_uses_key_id cs map k1 d
    rw [hidk k1] at huse
    refine ⟨huse, ?_, ?_, ?_⟩
    · have := hnode (k1.str.takeWhile fun b => b ≠ 0) (k2.str.takeWhile fun b => b ≠ 0)
      unfold strlen
      rw [this]
      constructor
      · intro he
        exact congrArg Prod.snd he
      · intro he
        rw [he]
    · intro he
      obtain ⟨c1, c2, c3⟩ := w_map_ops_congr cs map k1 k2 d (hiff.mpr he)
      exact ⟨c1, c2, c3, hsame (hiff.mpr he)⟩
    · intro hne
      exact hother fun h => hne (hiff.mp h)

/-- Witness for C17: the scalar values 42 and 106 (same bucket, different keys), given
with the strings `ab` and `ab` followed by a terminator and another byte; the first
conjunct is the scalar-keyed case on `w_map_new(0)`, the second the string-keyed case on
`w_map_new(1)`. -/
theorem w_map_key_dispatch_witness :
    ((-2 ^ 63 ≤ (42 : Int) ∧ (42 : Int) < 2 ^ 63) ∧
      (-2 ^ 63 ≤ (106 : Int) ∧ (106 : Int) < 2 ^ 63)) ∧
    (w_map_uses_key true (w_map_new 0) ⟨42, [97, 98]⟩ 5 (le_bytes 8 42) 8 ∧
      (w_slot_match (le_bytes 8 106) 8
          { keylen := 8, key := le_bytes 8 42, data := 5 } = true ↔ (42 : Int) = 106) ∧
      ((42 : Int) = 106 →
        w_map_get true (w_map_new 0) ⟨42, [97, 98]⟩
          = w_map_get true (w_map_new 0) ⟨106, [97, 98, 0, 99]⟩ ∧
        w_map_remove true (w_map_new 0) ⟨42, [97, 98]⟩
          = w_map_remove true (w_map_new 0) ⟨106, [97, 98, 0, 99]⟩ ∧
        w_map_set true (w_map_new 0) ⟨42, [97, 98]⟩ 5
          = w_map_set true (w_map_new 0) ⟨106, [97, 98, 0, 99]⟩ 5 ∧
        ((w_map_set true (w_map_new 0) ⟨42, [97, 98]⟩ 5).bind fun m =>
            w_map_get true m ⟨106, [97, 98, 0, 99]⟩)
          = (w_map_set true (w_map_new 0) ⟨42, [97, 98]⟩ 5).map fun _ => 5) ∧
      ((42 : Int) ≠ 106 →
        ((w_map_set true (w_map_new 0) ⟨42, [97, 98]⟩ 5).bind fun m =>
            w_map_get true m ⟨106, [97, 98, 0, 99]⟩)
          = (w_map_set true (w_map_new 0) ⟨42, [97, 98]⟩ 5).bind fun _ =>
              w_map_get true (w_map_new 0) ⟨106, [97, 98, 0, 99]⟩)) ∧
    (w_map_uses_key true (w_map_new 1) ⟨42, [97, 98]⟩ 5
        ([97, 98].takeWhile fun b => b ≠ 0) (strlen [97, 98]) ∧
      (w_slot_match ([97, 98, 0, 99].takeWhile fun b => b ≠ 0) (strlen [97, 98, 0, 99])
          { keylen := strlen [97, 98], key := [97, 98].takeWhile fun b => b ≠ 0,
            data := 5 } = true
        ↔ ([97, 98].takeWhile fun b => b ≠ 0)
            = ([97, 98, 0, 99].takeWhile fun b => b ≠ 0)) ∧
      (([97, 98].takeWhile fun b => b ≠ 0) = ([97, 98, 0, 99].takeWhile fun b => b ≠ 0) →
        w_map_get true (w_map_new 1) ⟨42, [97, 98]⟩
          = w_map_get true (w_map_new 1) ⟨106, [97, 98, 0, 99]⟩ ∧
        w_map_remove true (w_map_new 1) ⟨42, [97, 98]⟩
          = w_map_remove true (w_map_new 1) ⟨106, [97, 98, 0, 99]⟩ ∧
        w_map_set true (w_map_new 1) ⟨42, [97, 98]⟩ 5
          = w_map_set true (w_map_new 1) ⟨106, [97, 98, 0, 99]⟩ 5 ∧
        ((w_map_set true (w_map_new 1) ⟨42, [97, 98]⟩ 5).bind fun m =>
            w_map_get true m ⟨106, [97, 98, 0, 99]⟩)
          = (w_map_set true (w_map_new 1) ⟨42, [97, 98]⟩ 5).map fun _ => 5) ∧
      (([97, 98].takeWhile fun b => b ≠ 0) ≠ ([97, 98, 0, 99].takeWhile fun b => b ≠ 0) →
        ((w_map_set true (w_map_new 1) ⟨42, [97, 98]⟩ 5).bind fun m =>
            w_map_get true m ⟨106, [97, 98, 0, 99]⟩)
          = (w_map_set true (w_map_new 1) ⟨42, [97, 98]⟩ 5).bind fun _ =>
              w_map_get true (w_map_new 1) ⟨106, [97, 98, 0, 99]⟩)) :=
  ⟨⟨by decide, by decide⟩,
    (w_map_key_dispatch true (w_map_new 0) ⟨42, [97, 98]⟩ ⟨106, [97, 98, 0, 99]⟩ 5
      (by decide) (by decide)).1 rfl,
    (w_map_key_dispatch true (w_map_new 1) ⟨42, [97, 98]⟩ ⟨106, [97, 98, 0, 99]⟩ 5
      (by decide) (by decide)).2 (by decide)⟩

/-- The witness of the key-kind dispatch, evaluated: on a scalar-keyed map a set of 42
followed by a get of 106 returns 0, on a string-keyed map, where both calls carry the
string `ab`, it returns the payload 5. -/
theorem w_map_key_dispatch_eval :
    ((w_map_set true (w_map_new 0) ⟨42, [97, 98]⟩ 5).bind fun m =>
        w_map_get true m ⟨106, [97, 98, 0, 99]⟩) = some 0 ∧
    ((w_map_set true (w_map_new 1) ⟨42, [97, 98]⟩ 5).bind fun m =>
        w_map_get true m ⟨106, [97, 98, 0, 99]⟩) = some 5 := by
  decide

/-! ## Strings -/

/-- C20. For every string `x`, `w_str_new(x)` allocates `strlen(x)` bytes, and its final
store `str[l] = 0` is at offset `l = strlen(x)`, which is not strictly below the size of
the buffer: the call writes one byte past its allocation.  Shown here for every `x`, and
on the two-byte string `hi`. -/
theorem w_str_new_terminator_overflow :
    (∀ x : List Nat, (malloc (strlen x)).length = strlen x ∧
      (∃ s, writeBytes (malloc (strlen x)) 0 (x.take (strlen x)) = some s ∧
        s.length = strlen x ∧ writeBytes s (strlen x) [0] = none) ∧
      w_str_new x = none) ∧
    w_str_new [104, 105, 0] = none := by
  refine ⟨?_, by decide⟩
  intro x
  have hl : (malloc (strlen x)).length = strlen x := by simp [malloc]
  have hle : strlen x ≤ x.length := by
    unfold strlen
    exact List.Sublist.length_le (List.takeWhile_sublist _)
  have htl : (x.take (strlen x)).length = strlen x := by
    rw [List.length_take]; exact Nat.min_eq_left hle
  have hw : ∃ s, writeBytes (malloc (strlen x)) 0 (x.take (strlen x)) = some s := by
    unfold writeBytes
    rw [if_pos (by rw [htl, hl]; omega)]
    exact ⟨_, rfl⟩
  obtain ⟨s, hs⟩ := hw
  have hsl : s.length = strlen x := by rw [length_writeBytes hs, hl]
  have hov : writeBytes s (strlen x) [0] = none := by
    unfold writeBytes
    rw [if_neg (by rw [hsl]; simp)]
  refine ⟨hl, ⟨s, hs, hsl, hov⟩, ?_⟩
  unfold w_str_new
  dsimp only
  rw [hs, Option.some_bind, hov]


end Wax
